import Mathlib

/-
Verification of the CoNLL-U sentence model (lib/Sentence.js, lib/Token.js):
a shallow embedding of the data model (Token, MultiwordToken, Sentence),
the parse and serialize state machines (the `serial` getter and setter of
Token and Sentence), and the structural edits `expand` and `collapse`.

Modelling conventions:
- JavaScript strings are Lean `String` (splitting, slicing and joining are
  implemented on the underlying character list; indices count characters,
  which agrees with UTF-16 units on the inputs in scope).
- A JavaScript value that can be a number, a string, `undefined` or `NaN`
  (the `id` property of a token) is the inductive `JSId`; ids are integers
  (the corpus format only uses decimal integer ids; float ids are out of
  scope and are kept as strings by the embedded `Number` conversion).
- A field that can be a string or `undefined` is `Option String`.
- `Number(s)` is embedded by `jsNum`: the empty string converts to 0 and a
  nonempty all-digit string to its decimal value; anything else is `NaN`
  (`none`).
-/

set_option autoImplicit false

namespace Conllu

/-! ## Character-list string helpers (the JS string operations used) -/

/-- Split a character list at every occurrence of the separator character,
like the JavaScript `split` with a one-character separator: the result is
always nonempty and splitting the empty string yields `[[]]`. -/
def splitCharList (c : Char) : List Char → List (List Char)
  | [] => [[]]
  | x :: xs =>
    match splitCharList c xs with
    | [] => [[]]
    | y :: ys => if x = c then [] :: y :: ys else (x :: y) :: ys

/-- JavaScript `s.split(c)` for a one-character separator. -/
def jsSplit (c : Char) (s : String) : List String :=
  (splitCharList c s.toList).map (fun l => ⟨l⟩)

/-- JavaScript `Array.prototype.join(sep)`. -/
def joinSep (sep : String) : List String → String
  | [] => ""
  | [x] => x
  | x :: y :: t => x ++ sep ++ joinSep sep (y :: t)

/-- JavaScript `s.startsWith(p)`. -/
def jsStartsWith (s p : String) : Bool :=
  p.toList.isPrefixOf s.toList

/-- JavaScript `s.includes(c)` for a single character. -/
def jsIncludes (s : String) (c : Char) : Bool :=
  s.toList.contains c

/-- JavaScript `s.indexOf(c)` for a single character, assuming it occurs
(the source only uses the result after an `includes` check). -/
def jsIndexOfChar (s : String) (c : Char) : Nat :=
  s.toList.findIdx (fun x => x = c)

/-- JavaScript `s.slice(0, n)` for a nonnegative index. -/
def strTake (s : String) (n : Nat) : String :=
  ⟨s.toList.take n⟩

/-- JavaScript `s.slice(n)` for a nonnegative index. -/
def strDrop (s : String) (n : Nat) : String :=
  ⟨s.toList.drop n⟩

/-! ## Decimal digits and the embedded `Number` / `String` conversions -/

/-- The numeric value of a decimal digit character, if it is one. -/
def charDigit? (c : Char) : Option Nat :=
  if 48 ≤ c.toNat ∧ c.toNat ≤ 57 then some (c.toNat - 48) else none

/-- Decimal value of a character list made only of digits (`none` as soon
as a non-digit appears).  The empty list evaluates to 0, mirroring that
JavaScript `Number` converts the empty string to 0. -/
def digitsNum? (l : List Char) : Option Nat :=
  l.foldl
    (fun acc c =>
      match acc, charDigit? c with
      | some a, some d => some (10 * a + d)
      | _, _ => none)
    (some 0)

/-- Embedded JavaScript `Number(s)`: `some` an integer, `none` is `NaN`.
Strings with signs, spaces or a decimal point are out of the scope of the
corpus format and are mapped to `NaN`. -/
def jsNum (s : String) : Option Int :=
  (digitsNum? s.toList).map (fun n => (n : Int))

/-- Fueled production of the decimal digit list of a natural number, most
significant digit first. -/
def natDigitsGo : Nat → Nat → List Char
  | 0, _ => []
  | fuel + 1, m =>
    if m < 10 then [Nat.digitChar m]
    else natDigitsGo fuel (m / 10) ++ [Nat.digitChar (m % 10)]

/-- Decimal representation of a natural number (JavaScript `String(n)`). -/
def natRepr (n : Nat) : String :=
  ⟨natDigitsGo (n + 1) n⟩

/-- Decimal representation of an integer (JavaScript `String(n)`). -/
def intRepr (n : Int) : String :=
  if n < 0 then "-" ++ natRepr n.natAbs else natRepr n.toNat

/-! ## The `id` property of a token: number, string, `undefined` or `NaN` -/

/-- The possible JavaScript values of the `id` property of a Token. -/
inductive JSId where
  | undef : JSId
  | nan : JSId
  | num : Int → JSId
  | str : String → JSId
  deriving DecidableEq, Repr

/-- JavaScript `Number(x)` on an id value (`none` is `NaN`). -/
def jsNumberOfId : JSId → Option Int
  | .undef => none
  | .nan => none
  | .num n => some n
  | .str s => jsNum s

/-- JavaScript `String(x)` on an id value. -/
def jsIdString : JSId → String
  | .undef => "undefined"
  | .nan => "NaN"
  | .num n => intRepr n
  | .str s => s

/-- JavaScript `String(x)` on a string-or-undefined value. -/
def jsStringOfOption : Option String → String
  | none => "undefined"
  | some s => s

/-! ## Token (lib/Token.js) -/

/-- A Token: the ten positional fields of one line.  Defaults are the
prototype defaults of the source: `id` undefined, `form` the empty string,
the eight annotation fields undefined. -/
structure Token where
  id : JSId := .undef
  form : Option String := some ""
  «lemma» : Option String := none
  upostag : Option String := none
  xpostag : Option String := none
  feats : Option String := none
  head : Option String := none
  deprel : Option String := none
  deps : Option String := none
  misc : Option String := none
  deriving DecidableEq, Repr

/-- The `serial` setter of Token: split the line on tabs and assign the
ten fields positionally.  The first field becomes a number only when
`Number(fields[0])` is truthy (nonzero and not `NaN`), otherwise the raw
string is kept. -/
def tokenSerialSet (arg : String) : Token :=
  let fields := jsSplit '\t' arg
  let f0 := fields.headD ""
  { id :=
      match jsNum f0 with
      | some v => if v = 0 then .str f0 else .num v
      | none => .str f0
    form := fields.get? 1
    «lemma» := fields.get? 2
    upostag := fields.get? 3
    xpostag := fields.get? 4
    feats := fields.get? 5
    head := fields.get? 6
    deprel := fields.get? 7
    deps := fields.get? 8
    misc := fields.get? 9 }

/-- The rendering each of the eight annotation fields gets in the `serial`
getter of Token: the placeholder underscore unless the field is set and
nonempty (the source initializes the output to the underscore and
overwrites it when the field is neither `undefined` nor empty). -/
def renderAnnField (x : Option String) : String :=
  if ¬(x = none) ∧ ¬(x = some "") then jsStringOfOption x else "_"

/-- The test the `serial` getter of Token applies to the id slot (and,
in the source as written, also to decide how the form slot renders). -/
def idIsSet (i : JSId) : Bool :=
  ¬(i = JSId.undef) ∧ ¬(i = JSId.str "")

/-- The `serial` getter of Token: ten fields joined by tabs.  Note that
the source guards the form slot with the test on `this.id`, not on
`this.form`. -/
def tokenSerialGet (t : Token) : String :=
  let id_output := if idIsSet t.id then jsIdString t.id else "_"
  let form_output := if idIsSet t.id then jsStringOfOption t.form else "_"
  joinSep "\t"
    [id_output, form_output,
     renderAnnField t.«lemma», renderAnnField t.upostag,
     renderAnnField t.xpostag, renderAnnField t.feats,
     renderAnnField t.head, renderAnnField t.deprel,
     renderAnnField t.deps, renderAnnField t.misc]

/-! ## MultiwordToken (lib/MultiwordToken.js, not among the sources) -/

/-- A multiword token: a contracted surface form together with the ordered
child Tokens of the range it covers. -/
structure MultiwordToken where
  form : Option String := none
  tokens : List Token := []
  deriving DecidableEq, Repr

/-- Modelled from the spec: the `id` of a MultiwordToken (lib/MultiwordToken.js
and lib/TokenAggregate.js are not among the sources).  The nominal span is
read live from the first and last child: the id is the string
`String(tokens[0].id) + "-" + String(tokens[last].id)`.  For a group with
no children the JavaScript property reads of an undefined child are
rendered as `undefined` rather than as a thrown TypeError. -/
def mwtIdOf (m : MultiwordToken) : JSId :=
  .str (jsIdString ((m.tokens.headD {}).id) ++ "-" ++ jsIdString ((m.tokens.getLastD {}).id))

/-- Modelled from the spec: the `serial` setter of MultiwordToken
(lib/MultiwordToken.js is not among the sources).  The input block has the
range line first; its second field is the surface form, and every
following line is delegated to the Token parse.  The declared-span
consistency checks (`MalformedGroupError`) are not modelled: every use in
Sentence parse builds the block from lines whose first field was already
matched against the declared span. -/
def mwtSerialSet (block : String) : MultiwordToken :=
  let lines := jsSplit '\n' block
  { form := (jsSplit '\t' (lines.headD "")).get? 1
    tokens := (lines.drop 1).map tokenSerialSet }

/-- Modelled from the spec: the `serial` getter of MultiwordToken
(lib/MultiwordToken.js is not among the sources).  The range line carries
the live first-last span and the surface form followed by the eight
placeholders; each child then serializes on its own line. -/
def mwtSerialGet (m : MultiwordToken) : String :=
  let range_line :=
    jsIdString ((m.tokens.headD {}).id) ++ "-" ++ jsIdString ((m.tokens.getLastD {}).id)
      ++ "\t" ++ renderAnnField m.form ++ "\t_\t_\t_\t_\t_\t_\t_\t_"
  joinSep "\n" (range_line :: m.tokens.map tokenSerialGet)

/-! ## Sentence (lib/Sentence.js) -/

/-- A top-level entry of a sentence: a standalone Token or a
MultiwordToken group. -/
inductive Entry where
  | tok : Token → Entry
  | mwt : MultiwordToken → Entry
  deriving DecidableEq, Repr

/-- Serialization of one entry. -/
def entrySerial : Entry → String
  | .tok t => tokenSerialGet t
  | .mwt m => mwtSerialGet m

/-- A Sentence: the insertion-ordered metadata mapping (a JavaScript
object with string keys, embedded as an association list) and the ordered
list of top-level entries. -/
structure Sentence where
  metadata : List (String × String) := []
  tokens : List Entry := []
  deriving DecidableEq, Repr

/-- JavaScript `obj[key] = value` on a string-keyed object, recorded as
the insertion log: update in place when the key is present, append
otherwise.  Assigning to an existing key changes its value but not its
recorded position, as in JavaScript.  This list is the stored object;
property enumeration (`Object.entries`) does not read it in list order —
see `jsEntries`. -/
def jsObjInsert (m : List (String × String)) (k v : String) : List (String × String) :=
  if m.any (fun p => p.1 = k) then
    m.map (fun p => if p.1 = k then (k, v) else p)
  else
    m ++ [(k, v)]

/-- First index at which the pattern occurs as a contiguous sublist. -/
def findSubIdx (pat : List Char) : List Char → Option Nat
  | [] => if pat.isPrefixOf ([] : List Char) then some 0 else none
  | c :: t =>
    if pat.isPrefixOf (c :: t) then some 0
    else (findSubIdx pat t).map (· + 1)

/-- Last index at which the pattern occurs as a contiguous sublist. -/
def findSubLast (pat : List Char) : List Char → Option Nat
  | [] => if pat.isPrefixOf ([] : List Char) then some 0 else none
  | c :: t =>
    match findSubLast pat t with
    | some i => some (i + 1)
    | none => if pat.isPrefixOf (c :: t) then some 0 else none

/-- The capture of the metadata regular expression `# (.*) = (.*)` on one
line: the match starts at the first occurrence of hash-space, the first
greedy group runs to the last space-equals-space after it, and the second
group takes the rest of the line. -/
def regexMetaCapture (line : String) : Option (String × String) :=
  match findSubIdx ['#', ' '] line.toList with
  | none => none
  | some p =>
    let rest := line.toList.drop (p + 2)
    match findSubLast [' ', '=', ' '] rest with
    | none => none
    | some q => some (⟨rest.take q⟩, ⟨rest.drop (q + 3)⟩)

/-- One line of the metadata pass of the Sentence `serial` setter: a line
is recognized when it starts with a hash and the regular expression
matches. -/
def recognizeMeta (line : String) : Option (String × String) :=
  if jsStartsWith line "#" then regexMetaCapture line else none

/-- The metadata pass of the Sentence `serial` setter: every recognized
line is inserted into the metadata object in encounter order. -/
def metadataPass (lines : List String) : List (String × String) :=
  lines.foldl
    (fun m l =>
      match recognizeMeta l with
      | some (k, v) => jsObjInsert m k v
      | none => m)
    []

/-- The span of integer ids declared by a range marker: all integers from
`first` to `last` inclusive (empty when either bound is `NaN` or the
bounds are out of order). -/
def spanOf (first last : Option Int) : List Int :=
  match first, last with
  | some a, some b => (List.range' 0 ((b + 1 - a).toNat)).map (fun k => a + k)
  | _, _ => []

/-- One line of the token pass of the Sentence `serial` setter.  The state
is the list of consumed multiword child ids and the entry list built so
far; `lines` is the whole input, re-scanned by the multiword branch.  On a
range marker the source builds the multiword block, parses it, and then
appends `setMwt.tokens` (the child Tokens themselves) to the entry list. -/
def tokenPassStep (lines : List String) (st : List Int × List Entry) (line : String) :
    List Int × List Entry :=
  let fields := jsSplit '\t' line
  let currentLineId := fields.headD ""
  if ¬ (jsStartsWith line "#") ∧ ¬ (line = "") then
    if jsIncludes currentLineId '-' then
      let dashIndex := jsIndexOfChar currentLineId '-'
      let first := jsNum (strTake currentLineId dashIndex)
      let last := jsNum (strDrop currentLineId (dashIndex + 1))
      let span := spanOf first last
      let spanStr := span.map intRepr
      let mwtLines := lines.filter (fun lj => ((jsSplit '\t' lj).headD "") ∈ spanStr)
      let mwtString := joinSep "\n" (line :: mwtLines)
      let setMwt := mwtSerialSet mwtString
      (span, st.2 ++ setMwt.tokens.map Entry.tok)
    else
      match jsNum currentLineId with
      | some v => if v ∈ st.1 then st else (st.1, st.2 ++ [Entry.tok (tokenSerialSet line)])
      | none => (st.1, st.2 ++ [Entry.tok (tokenSerialSet line)])
  else st

/-- The `serial` setter of Sentence: clear the metadata and the entry
list, run the metadata pass, then run the token pass over the lines.  The
previous state of the sentence is never consulted. -/
def sentenceSerialSet (_s : Sentence) (arg : String) : Sentence :=
  let lines := jsSplit '\n' arg
  { metadata := metadataPass lines
    tokens := (lines.foldl (tokenPassStep lines) ([], [])).2 }

/-- The rendering of one metadata pair in the Sentence `serial` getter. -/
def renderMetaLine (p : String × String) : String :=
  "# " ++ p.1 ++ " = " ++ p.2

/-- Whether a key is a JavaScript array index: the canonical decimal
representation (no leading zero except for `0` itself) of an integer
strictly below 2^32 - 1, returned with its numeric value. -/
def isArrayIndex (k : String) : Option Nat :=
  match k.toList with
  | [] => none
  | c :: cs =>
    match digitsNum? (c :: cs) with
    | none => none
    | some v => if (c = '0' ∧ cs ≠ []) ∨ 4294967295 ≤ v then none else some v

/-- The numeric value a pair sorts by in property enumeration (only used
on pairs whose key is an array index). -/
def idxKeyVal (p : String × String) : Nat :=
  (isArrayIndex p.1).getD 0

/-- JavaScript `Object.entries` on the stored object: the pairs whose
keys are array indices come first, in ascending numeric order, followed
by the remaining pairs in insertion order. -/
def jsEntries (m : List (String × String)) : List (String × String) :=
  List.insertionSort (fun p q => idxKeyVal p ≤ idxKeyVal q)
      (m.filter (fun p => (isArrayIndex p.1).isSome))
    ++ m.filter (fun p => (isArrayIndex p.1).isNone)

/-- The `serial` getter of Sentence: one line per metadata pair in
`Object.entries` enumeration order (array-index keys first, ascending;
then the other keys in insertion order), each entry, and a final empty
string, joined by newlines. -/
def sentenceSerialGet (s : Sentence) : String :=
  joinSep "\n" ((jsEntries s.metadata).map renderMetaLine ++ s.tokens.map entrySerial ++ [""])

/-! ## expand and collapse (Sentence.prototype) -/

/-- The id shift applied to entries after an edit point: coerce the id to
a number and add the shift (`id++` in expand, `Number(id - (mwt_length - 1))`
in collapse); a non-numeric id becomes `NaN`. -/
def shiftId (d : Int) (i : JSId) : JSId :=
  match jsNumberOfId i with
  | some v => .num (v + d)
  | none => .nan

/-- Apply the id shift to one entry: a standalone Token shifts its id, a
MultiwordToken shifts the id of every child (the parent id follows the
children). -/
def shiftEntry (d : Int) : Entry → Entry
  | .tok t => .tok { t with id := shiftId d t.id }
  | .mwt m => .mwt { m with tokens := m.tokens.map (fun c => { c with id := shiftId d c.id }) }

/-- JavaScript `Number(x)` kept as an id value (`NaN` when not numeric). -/
def jsToNum (i : JSId) : JSId :=
  match jsNumberOfId i with
  | some v => .num v
  | none => .nan

/-- The scan of the expand loop: the first entry that is a standalone
Token (not a MultiwordToken) whose id is strictly equal to the requested
id, returned with the entries before and after it. -/
def splitAtTok (tid : JSId) : List Entry → Option (List Entry × Token × List Entry)
  | [] => none
  | .tok t :: es =>
    if t.id = tid then some ([], t, es)
    else (splitAtTok tid es).map (fun r => (.tok t :: r.1, r.2.1, r.2.2))
  | .mwt m :: es =>
    (splitAtTok tid es).map (fun r => (.mwt m :: r.1, r.2.1, r.2.2))

/-- The scan of the collapse loop: the first MultiwordToken entry whose id
is strictly equal to the requested id (a standalone Token with a matching
id does not stop the scan; the source does nothing for it), returned with
the entries before and after it. -/
def splitAtMwt (tid : JSId) : List Entry → Option (List Entry × MultiwordToken × List Entry)
  | [] => none
  | .tok t :: es =>
    (splitAtMwt tid es).map (fun r => (.tok t :: r.1, r.2.1, r.2.2))
  | .mwt m :: es =>
    if mwtIdOf m = tid then some ([], m, es)
    else (splitAtMwt tid es).map (fun r => (.mwt m :: r.1, r.2.1, r.2.2))

/-- `Sentence.prototype.expand(token_id, index)`: split the standalone
Token with the given id at the character offset into a two-child
MultiwordToken placed at the same position, and shift the id of every
later entry up by one.  When no standalone Token matches, the sentence is
unchanged; when the form of the match is `undefined`, the JavaScript
`slice` call throws before any state is mutated, so the sentence is
likewise unchanged. -/
def expand (s : Sentence) (token_id : JSId) (index : Nat) : Sentence :=
  match splitAtTok token_id s.tokens with
  | none => s
  | some (before, t, after) =>
    match t.form with
    | none => s
    | some f =>
      { s with
        tokens :=
          before
            ++ .mwt
                { form := some f
                  tokens :=
                    [{ id := t.id, form := some (strTake f index) },
                     { id := shiftId 1 t.id, form := some (strDrop f index) }] }
              :: after.map (shiftEntry 1) }

/-- `Sentence.prototype.collapse(token_id)`: replace the MultiwordToken
whose id matches with a single Token taking the id of the first child and
the form of the group, and shift the id of every later entry down by the
child count minus one.  When no MultiwordToken matches, the sentence is
unchanged; when the matched group has no children, the JavaScript read of
`tokens[0].id` throws before any state is mutated, so the sentence is
likewise unchanged. -/
def collapse (s : Sentence) (token_id : JSId) : Sentence :=
  match splitAtMwt token_id s.tokens with
  | none => s
  | some (before, m, after) =>
    match m.tokens with
    | [] => s
    | c0 :: cs =>
      { s with
        tokens :=
          before
            ++ .tok { id := jsToNum c0.id, form := m.form }
              :: after.map (shiftEntry (-(((c0 :: cs).length : Int) - 1))) }

/-! ## Identifier sequences and operation sequences (spec-side notions) -/

/-- The identifiers contributed by one entry, in display order: the id of
a standalone Token, or the ids of the children of a MultiwordToken. -/
def entryIds : Entry → List JSId
  | .tok t => [t.id]
  | .mwt m => m.tokens.map (fun c => c.id)

/-- The identifiers of a list of entries, flattened in display order. -/
def flatIds (es : List Entry) : List JSId :=
  (es.map entryIds).flatten

/-- The identifiers of a sentence in display order, across standalone
Tokens and MultiwordToken children. -/
def idSeq (s : Sentence) : List JSId :=
  flatIds s.tokens

/-- The ascending run of numeric identifiers `a, a+1, ..., a+n-1`. -/
def idRun (a : Int) : Nat → List JSId
  | 0 => []
  | n + 1 => .num a :: idRun (a + 1) n

/-- One structural edit operation on a sentence. -/
inductive Op where
  | expandOp : JSId → Nat → Op
  | collapseOp : JSId → Op

/-- Apply one structural edit. -/
def applyOp (s : Sentence) : Op → Sentence
  | .expandOp tid index => expand s tid index
  | .collapseOp tid => collapse s tid

/-- Apply a sequence of structural edits, first operation first. -/
def applyOps (s : Sentence) (ops : List Op) : Sentence :=
  ops.foldl applyOp s

/-- Spec-side id adjustment: add `d` to a numeric identifier and leave any
other identifier unchanged.  On entries whose identifiers are all numeric
this is what the spec means by incrementing or decrementing ids. -/
def bumpId (d : Int) : JSId → JSId
  | .num v => .num (v + d)
  | i => i

/-- Spec-side id adjustment of one entry. -/
def bumpEntry (d : Int) : Entry → Entry
  | .tok t => .tok { t with id := bumpId d t.id }
  | .mwt m => .mwt { m with tokens := m.tokens.map (fun c => { c with id := bumpId d c.id }) }

/-- Whether an entry is a standalone Token with the given id. -/
def isTokWithId (tid : JSId) : Entry → Bool
  | .tok t => t.id = tid
  | .mwt _ => false

/-- Whether an entry is a MultiwordToken with the given id. -/
def isMwtWithId (tid : JSId) : Entry → Bool
  | .tok _ => false
  | .mwt m => mwtIdOf m = tid

/-- Whether an identifier is numeric. -/
def idNumeric : JSId → Bool
  | .num _ => true
  | _ => false

/-- Whether every identifier of every entry is numeric. -/
def entriesNumeric (es : List Entry) : Bool :=
  es.all (fun e => (entryIds e).all idNumeric)

/-! ## Spec-side Token serialization (the placeholder convention) -/

/-- Spec-side placeholder normalization of an optional field: an unset or
empty field renders as the placeholder underscore, any other value renders
as itself. -/
def placeholderRender : Option String → String
  | none => "_"
  | some s => if s = "" then "_" else s

/-- Spec-side rendering of the id slot: the placeholder when the id is
unset or the empty string, its JavaScript string conversion otherwise. -/
def renderIdSpec (i : JSId) : String :=
  match i with
  | .undef => "_"
  | .str s => if s = "" then "_" else s
  | .num n => intRepr n
  | .nan => "NaN"

/-- Spec-side rendering of the form slot as the source actually behaves:
the placeholder exactly when the id is unset or empty, otherwise the
JavaScript string conversion of the form (even when the form itself is
empty or unset). -/
def renderFormSpec (t : Token) : String :=
  match t.id with
  | .undef => "_"
  | .str s => if s = "" then "_" else jsStringOfOption t.form
  | _ => jsStringOfOption t.form

/-- Spec-side Token serialization: the ten slots joined by tabs, the
placeholder convention applied to the id and the eight annotation fields
on their own value, and the form slot guarded by the id. -/
def tokenSerialSpec (t : Token) : String :=
  joinSep "\t"
    [renderIdSpec t.id, renderFormSpec t,
     placeholderRender t.«lemma», placeholderRender t.upostag,
     placeholderRender t.xpostag, placeholderRender t.feats,
     placeholderRender t.head, placeholderRender t.deprel,
     placeholderRender t.deps, placeholderRender t.misc]

/-- The nine optional positional fields of a Token (form and the eight
annotation fields), in line order. -/
def tokenOptFields (t : Token) : List (Option String) :=
  [t.form, t.«lemma», t.upostag, t.xpostag, t.feats,
   t.head, t.deprel, t.deps, t.misc]

/-! ## Spec-side metadata notions -/

/-- The recognized metadata pairs of the input lines, in encounter order
with repetitions. -/
def recognizedPairs (lines : List String) : List (String × String) :=
  lines.filterMap recognizeMeta

/-- Keys in first-occurrence order: every key keeps the position of its
first encounter. -/
def firstDedupAux (seen : List String) : List String → List String
  | [] => []
  | k :: ks => if k ∈ seen then firstDedupAux seen ks else k :: firstDedupAux (k :: seen) ks

/-- Keys in first-occurrence order. -/
def firstDedup (ks : List String) : List String :=
  firstDedupAux [] ks

/-- The last value written for a key in a list of pairs (last write
wins). -/
def jsLastVal (ps : List (String × String)) (k : String) : Option String :=
  ps.foldl (fun acc p => if p.1 = k then some p.2 else acc) none

/-- Lookup in the embedded metadata object. -/
def metaLookup (m : List (String × String)) (k : String) : Option String :=
  (m.find? (fun p => p.1 = k)).map (fun p => p.2)

/-! ## Concrete sample inputs -/

/-- The apostrophe character. -/
def apostrophe : Char := Char.ofNat 39

/-- The contracted surface form of the sample multiword block. -/
def haveNotForm : String := "haven" ++ (⟨[apostrophe]⟩ : String) ++ "t"

/-- A well-formed sentence text made of one multiword range line and its
two child lines, with the placeholder used consistently for every unset
field. -/
def sampleMwtBlock : String :=
  "2-3\t" ++ haveNotForm ++ "\t_\t_\t_\t_\t_\t_\t_\t_\n"
    ++ "2\thave\t_\t_\t_\t_\t_\t_\t_\t_\n"
    ++ "3\tnot\t_\t_\t_\t_\t_\t_\t_\t_\n"

/-- What serializing the parse of `sampleMwtBlock` actually produces: the
two child lines only, the range line dropped. -/
def sampleMwtFlattened : String :=
  "2\thave\t_\t_\t_\t_\t_\t_\t_\t_\n3\tnot\t_\t_\t_\t_\t_\t_\t_\t_\n"

/-! ## Claims -/

/-- C1: the round-trip law fails on the code for a well-formed sentence
text containing a multiword range line: the token pass of the Sentence
serial setter appends the children of the parsed MultiwordToken instead
of the group itself, so re-serializing drops the range line.  Evaluating
the code at the failing input: serializing the parse of `sampleMwtBlock`
yields `sampleMwtFlattened`, which differs from the input. -/
theorem c1_roundtrip_failure :
    sentenceSerialGet (sentenceSerialSet {} sampleMwtBlock) = sampleMwtFlattened
      ∧ sampleMwtFlattened ≠ sampleMwtBlock := by
  constructor
  · decide
  · decide

/-- C2: contrary to the claim, the token pass does not append the
MultiwordToken itself: parsing the block with range line 2-3 and child
lines 2 and 3 yields a Sentence whose `tokens` are the two child Tokens
directly, with no MultiwordToken entry. -/
theorem c2_parse_flattens :
    (sentenceSerialSet {} sampleMwtBlock).tokens
      = [Entry.tok { id := .num 2, form := some "have", «lemma» := some "_",
                     upostag := some "_", xpostag := some "_", feats := some "_",
                     head := some "_", deprel := some "_", deps := some "_",
                     misc := some "_" },
         Entry.tok { id := .num 3, form := some "not", «lemma» := some "_",
                     upostag := some "_", xpostag := some "_", feats := some "_",
                     head := some "_", deprel := some "_", deps := some "_",
                     misc := some "_" }] := by
  decide

/-- C10: the Sentence serial setter first clears the metadata and the
entry list, so the parsed state depends only on the assigned text and
never on the previous contents of the sentence. -/
theorem c10_parse_state_independent (s₁ s₂ : Sentence) (T : String) :
    sentenceSerialSet s₁ T = sentenceSerialSet s₂ T :=
  rfl

/-- The annotation-field rendering of the source agrees with the
spec-side placeholder normalization on the own value of the field. -/
theorem renderAnnField_eq_placeholder (x : Option String) :
    renderAnnField x = placeholderRender x := by
  cases x with
  | none => simp [renderAnnField, placeholderRender]
  | some s =>
    by_cases hs : s = "" <;>
      simp [renderAnnField, placeholderRender, hs, jsStringOfOption]

/-- The id-slot rendering of the source agrees with the spec-side id
rendering. -/
theorem idSlot_eq_renderIdSpec (i : JSId) :
    (if idIsSet i then jsIdString i else "_") = renderIdSpec i := by
  cases i with
  | undef => simp [idIsSet, renderIdSpec]
  | nan => simp [idIsSet, renderIdSpec, jsIdString]
  | num n => simp [idIsSet, renderIdSpec, jsIdString]
  | str s =>
    by_cases hs : s = "" <;>
      simp [idIsSet, renderIdSpec, jsIdString, hs]

/-- The form-slot rendering of the source (guarded by the id test) agrees
with the spec-side form rendering. -/
theorem formSlot_eq_renderFormSpec (t : Token) :
    (if idIsSet t.id then jsStringOfOption t.form else "_") = renderFormSpec t := by
  cases h : t.id with
  | undef => simp [idIsSet, renderFormSpec, h]
  | nan => simp [idIsSet, renderFormSpec, h]
  | num n => simp [idIsSet, renderFormSpec, h]
  | str s =>
    by_cases hs : s = "" <;>
      simp [idIsSet, renderFormSpec, h, hs]

/-- C7 counterexample: assigning a line with fewer than ten tab-separated
fields to the Token serial setter does not fail: it produces a definite
Token whose missing trailing fields are unset. -/
theorem c7_counterexample :
    (jsSplit '\t' "1\thello").length < 10
      ∧ tokenSerialSet "1\thello"
          = { id := .num 1, form := some "hello", «lemma» := none,
              upostag := none, xpostag := none, feats := none, head := none,
              deprel := none, deps := none, misc := none } := by
  constructor
  · decide
  · decide

/-- C7 (amended): the Token serial setter never fails; on a line with
fewer than ten tab-separated fields every positional field beyond the
ones present is simply unset. -/
theorem c7_short_line_tolerated (line : String) (j : Nat) (hj : j < 9)
    (hlen : (jsSplit '\t' line).length ≤ j + 1) :
    (tokenOptFields (tokenSerialSet line)).get? j = some none := by
  interval_cases j <;>
    exact congrArg some (List.get?_eq_none.mpr (by omega))

/-- C7 witness: the two-field line instantiates the amended claim. -/
theorem c7_short_line_tolerated_witness :
    2 < 9 ∧ (jsSplit '\t' "1\thello").length ≤ 3
      ∧ (tokenOptFields (tokenSerialSet "1\thello")).get? 2 = some none :=
  ⟨by decide, by decide, c7_short_line_tolerated "1\thello" 2 (by decide) (by decide)⟩

/-- C8 counterexample: a Token with a set id and an empty form serializes
its form slot as the empty string, not as the placeholder the claim
predicts for an empty form. -/
theorem c8_counterexample :
    tokenSerialGet { id := .num 1, form := some "" }
        = "1\t\t_\t_\t_\t_\t_\t_\t_\t_"
      ∧ "1\t\t_\t_\t_\t_\t_\t_\t_\t_" ≠ "1\t_\t_\t_\t_\t_\t_\t_\t_\t_" := by
  constructor
  · decide
  · decide

/-- C8 (amended): Token serialization renders the placeholder for the id
slot and for each of the eight annotation fields exactly when that field
is unset or empty; the form slot, however, is guarded by the id test: it
renders the placeholder exactly when the id is unset or empty, and the
string conversion of the form otherwise, even when the form is empty. -/
theorem c8_serialization_placeholders (t : Token) :
    tokenSerialGet t = tokenSerialSpec t := by
  simp only [tokenSerialGet, tokenSerialSpec]
  rw [idSlot_eq_renderIdSpec, formSlot_eq_renderFormSpec]
  simp only [renderAnnField_eq_placeholder]

/-! ## Metadata lemmas (towards C9) -/

/-- Folding `jsObjInsert` over recognized pairs. -/
def metaIns (m : List (String × String)) (p : String × String) : List (String × String) :=
  jsObjInsert m p.1 p.2

/-- The metadata pass is the fold of the object insertion over the
recognized pairs in encounter order. -/
theorem metadataPass_eq_fold (lines : List String) :
    metadataPass lines = (recognizedPairs lines).foldl metaIns [] := by
  suffices h : ∀ (ls : List String) (m : List (String × String)),
      ls.foldl
        (fun m l =>
          match recognizeMeta l with
          | some (k, v) => jsObjInsert m k v
          | none => m)
        m = (recognizedPairs ls).foldl metaIns m by
    exact h lines []
  intro ls
  induction ls with
  | nil => intro m; rfl
  | cons l ls ih =>
    intro m
    simp only [List.foldl_cons, recognizedPairs, List.filterMap_cons]
    cases h : recognizeMeta l with
    | none => exact ih m
    | some p =>
      cases p with
      | mk k v => simp only [List.foldl_cons, metaIns]; exact ih (jsObjInsert m k v)

/-- The key-presence test of `jsObjInsert` is membership in the key
list. -/
theorem anyKey_iff (m : List (String × String)) (k : String) :
    m.any (fun p => p.1 = k) = true ↔ k ∈ m.map Prod.fst := by
  simp only [List.any_eq_true, List.mem_map, decide_eq_true_eq]

/-- Keys after one object insertion: unchanged when the key is present,
the key appended otherwise. -/
theorem keys_jsObjInsert (m : List (String × String)) (k v : String) :
    (jsObjInsert m k v).map Prod.fst =
      if m.any (fun p => p.1 = k) then m.map Prod.fst else m.map Prod.fst ++ [k] := by
  unfold jsObjInsert
  split
  · rw [List.map_map]
    refine List.map_congr_left ?_
    intro p _
    simp only [Function.comp_apply]
    split
    · next h => exact h.symm
    · rfl
  · simp

/-- First-occurrence deduplication only depends on the membership of the
seen set. -/
theorem firstDedupAux_congr (s₁ s₂ : List String) (h : ∀ a, a ∈ s₁ ↔ a ∈ s₂) :
    ∀ l, firstDedupAux s₁ l = firstDedupAux s₂ l := by
  intro l
  induction l generalizing s₁ s₂ with
  | nil => rfl
  | cons k ks ih =>
    simp only [firstDedupAux]
    by_cases hk : k ∈ s₁
    · rw [if_pos hk, if_pos ((h k).mp hk)]
      exact ih s₁ s₂ h
    · rw [if_neg hk, if_neg (fun hc => hk ((h k).mpr hc))]
      refine congrArg (k :: ·) (ih (k :: s₁) (k :: s₂) ?_)
      intro a
      simp [h a]

/-- Keys of the insertion fold: the keys already present followed by the
new keys in first-occurrence order. -/
theorem foldIns_keys (ps : List (String × String)) :
    ∀ m : List (String × String),
      (ps.foldl metaIns m).map Prod.fst
        = m.map Prod.fst ++ firstDedupAux (m.map Prod.fst) (ps.map Prod.fst) := by
  induction ps with
  | nil => intro m; simp [firstDedupAux]
  | cons p ps ih =>
    intro m
    simp only [List.foldl_cons, List.map_cons, firstDedupAux]
    by_cases h : m.any (fun q => q.1 = p.1) = true
    · have hkeys : (metaIns m p).map Prod.fst = m.map Prod.fst := by
        rw [metaIns, keys_jsObjInsert, if_pos h]
      rw [ih (metaIns m p), hkeys, if_pos ((anyKey_iff m p.1).mp h)]
    · have hmem : p.1 ∉ m.map Prod.fst := fun hc =>
        h ((anyKey_iff m p.1).mpr hc)
      have hkeys : (metaIns m p).map Prod.fst = m.map Prod.fst ++ [p.1] := by
        rw [metaIns, keys_jsObjInsert, if_neg (by simpa using h)]
      rw [ih (metaIns m p), hkeys, if_neg hmem, List.append_assoc]
      refine congrArg (m.map Prod.fst ++ ·) (congrArg (p.1 :: ·) ?_)
      refine firstDedupAux_congr _ _ (fun a => ?_) (ps.map Prod.fst)
      simp [or_comm]

/-- The insertion fold preserves key uniqueness. -/
theorem foldIns_nodup (ps : List (String × String)) :
    ∀ m : List (String × String),
      ((m.map Prod.fst).Nodup) → ((ps.foldl metaIns m).map Prod.fst).Nodup := by
  induction ps with
  | nil => intro m hm; exact hm
  | cons p ps ih =>
    intro m hm
    refine ih (metaIns m p) ?_
    by_cases h : m.any (fun q => q.1 = p.1) = true
    · rw [metaIns, keys_jsObjInsert, if_pos h]; exact hm
    · rw [metaIns, keys_jsObjInsert, if_neg (by simpa using h)]
      have hmem : p.1 ∉ m.map Prod.fst := fun hc => h ((anyKey_iff m p.1).mpr hc)
      exact ((List.perm_append_singleton p.1 (m.map Prod.fst)).nodup_iff).mpr
        (hm.cons hmem)

/-- Lookup on a cons cell. -/
theorem metaLookup_cons (q : String × String) (m : List (String × String)) (k : String) :
    metaLookup (q :: m) k = if q.1 = k then some q.2 else metaLookup m k := by
  unfold metaLookup
  by_cases hq : q.1 = k
  · rw [List.find?_cons_of_pos _ (by simpa using hq), if_pos hq]
    rfl
  · rw [List.find?_cons_of_neg _ (by simpa using hq), if_neg hq]

/-- Lookup in the in-place update: the updated key reads the new value
when present. -/
theorem metaLookup_map_self (m : List (String × String)) (k v : String)
    (h : m.any (fun p => p.1 = k) = true) :
    metaLookup (m.map (fun p => if p.1 = k then (k, v) else p)) k = some v := by
  induction m with
  | nil => simp at h
  | cons q m ih =>
    simp only [List.map_cons, metaLookup_cons]
    by_cases hq : q.1 = k
    · rw [if_pos hq]
      simp
    · rw [if_neg hq, if_neg hq]
      have h2 : m.any (fun p => p.1 = k) = true := by
        simp only [List.any_cons, Bool.or_eq_true, decide_eq_true_eq] at h
        rcases h with h | h
        · exact absurd h hq
        · exact h
      exact ih h2

/-- Lookup in the appended pair: the new key reads the new value when it
was absent. -/
theorem metaLookup_append_self (m : List (String × String)) (k v : String)
    (h : ¬ (m.any (fun p => p.1 = k) = true)) :
    metaLookup (m ++ [(k, v)]) k = some v := by
  induction m with
  | nil => simp [metaLookup_cons]
  | cons q m ih =>
    have hq : ¬ (q.1 = k) := fun hc => h (by simp [List.any_cons, hc])
    have h2 : ¬ (m.any (fun p => p.1 = k) = true) := fun hc =>
      h (by simp [List.any_cons, hc])
    rw [List.cons_append, metaLookup_cons, if_neg hq]
    exact ih h2

/-- Lookup at another key ignores an in-place update. -/
theorem metaLookup_map_other (m : List (String × String)) (k k0 v : String)
    (h : ¬ (k = k0)) :
    metaLookup (m.map (fun p => if p.1 = k0 then (k0, v) else p)) k = metaLookup m k := by
  induction m with
  | nil => rfl
  | cons q m ih =>
    simp only [List.map_cons, metaLookup_cons]
    by_cases hq : q.1 = k0
    · rw [if_pos hq]
      have hk0 : ¬ ((k0, v).1 = k) := fun hc => h hc.symm
      have hqk : ¬ (q.1 = k) := fun hc => h (hc.symm.trans hq)
      rw [if_neg hk0, if_neg hqk]
      exact ih
    · rw [if_neg hq]
      by_cases hk : q.1 = k
      · rw [if_pos hk, if_pos hk]
      · rw [if_neg hk, if_neg hk]
        exact ih

/-- Lookup at another key ignores an appended pair. -/
theorem metaLookup_append_other (m : List (String × String)) (k k0 v : String)
    (h : ¬ (k = k0)) : metaLookup (m ++ [(k0, v)]) k = metaLookup m k := by
  induction m with
  | nil =>
    simp only [List.nil_append, metaLookup_cons]
    rw [if_neg (fun hc : ((k0, v)).1 = k => h hc.symm)]
  | cons q m ih =>
    rw [List.cons_append, metaLookup_cons, metaLookup_cons]
    by_cases hk : q.1 = k
    · rw [if_pos hk, if_pos hk]
    · rw [if_neg hk, if_neg hk]
      exact ih

/-- Lookup after one object insertion: the inserted value at its key,
the previous lookup elsewhere. -/
theorem metaLookup_insert (m : List (String × String)) (p : String × String)
    (k : String) :
    metaLookup (metaIns m p) k
      = (if p.1 = k then some p.2 else none).or (metaLookup m k) := by
  by_cases hp : p.1 = k
  · subst hp
    rw [if_pos rfl]
    show metaLookup (metaIns m p) p.1 = some p.2
    unfold metaIns jsObjInsert
    split
    · next h => exact metaLookup_map_self m p.1 p.2 h
    · next h => exact metaLookup_append_self m p.1 p.2 h
  · rw [if_neg hp]
    show metaLookup (metaIns m p) k = metaLookup m k
    have hk : ¬ (k = p.1) := fun hc => hp hc.symm
    unfold metaIns jsObjInsert
    split
    · exact metaLookup_map_other m k p.1 p.2 hk
    · exact metaLookup_append_other m k p.1 p.2 hk

/-- The last-written value as a fold from an arbitrary accumulator. -/
theorem jsLastVal_foldl (k : String) (ps : List (String × String)) :
    ∀ acc : Option String,
      ps.foldl (fun acc p => if p.1 = k then some p.2 else acc) acc
        = (jsLastVal ps k).or acc := by
  induction ps with
  | nil => intro acc; rfl
  | cons p ps ih =>
    intro acc
    simp only [List.foldl_cons, jsLastVal]
    rw [ih, ih (if p.1 = k then some p.2 else none)]
    by_cases hp : p.1 = k
    · rw [if_pos hp, if_pos hp, Option.or_assoc]
      simp
    · rw [if_neg hp, if_neg hp, Option.or_assoc]
      simp

/-- Lookup in the insertion fold is the last written value, falling back
to the initial object. -/
theorem metaLookup_foldIns (ps : List (String × String)) :
    ∀ (m : List (String × String)) (k : String),
      metaLookup (ps.foldl metaIns m) k = (jsLastVal ps k).or (metaLookup m k) := by
  induction ps with
  | nil => intro m k; simp [jsLastVal]
  | cons p ps ih =>
    intro m k
    have hl : jsLastVal (p :: ps) k
        = (jsLastVal ps k).or (if p.1 = k then some p.2 else none) := by
      show List.foldl _ (if p.1 = k then some p.2 else none) ps = _
      exact jsLastVal_foldl k ps _
    rw [List.foldl_cons, ih, metaLookup_insert, hl, Option.or_assoc]

/-- A pair of an object with unique keys is found by lookup. -/
theorem metaLookup_of_mem (m : List (String × String)) (p : String × String)
    (hnd : (m.map Prod.fst).Nodup) (hp : p ∈ m) : metaLookup m p.1 = some p.2 := by
  induction m with
  | nil => cases hp
  | cons q m ih =>
    rcases List.mem_cons.mp hp with h | h
    · subst h
      simp [metaLookup_cons]
    · have hq : ¬ (q.1 = p.1) := by
        intro hc
        have hin : p.1 ∈ m.map Prod.fst := List.mem_map.mpr ⟨p, h, rfl⟩
        exact (List.nodup_cons.mp hnd).1 (hc ▸ hin)
      rw [metaLookup_cons, if_neg hq]
      exact ih (List.nodup_cons.mp hnd).2 h

/-- Joining a nonempty tail: the joined prefix is a string prefix of the
whole join. -/
theorem joinSep_append_rest (sep : String) (xs : List String) (y : String)
    (ys : List String) :
    ∃ r : String, joinSep sep (xs ++ y :: ys) = joinSep sep xs ++ r := by
  induction xs with
  | nil => exact ⟨joinSep sep (y :: ys), by simp [joinSep]⟩
  | cons x xs ih =>
    cases xs with
    | nil => exact ⟨sep ++ joinSep sep (y :: ys), by simp [joinSep, String.append_assoc]⟩
    | cons x2 t =>
      obtain ⟨r, hr⟩ := ih
      refine ⟨r, ?_⟩
      rw [List.cons_append] at hr
      show x ++ sep ++ joinSep sep (x2 :: (t ++ y :: ys))
          = (x ++ sep ++ joinSep sep (x2 :: t)) ++ r
      rw [hr, String.append_assoc, String.append_assoc, ← String.append_assoc]

/-- First-occurrence deduplication only keeps keys of the input. -/
theorem mem_of_mem_firstDedupAux (l : List String) :
    ∀ (seen : List String) (x : String), x ∈ firstDedupAux seen l → x ∈ l := by
  induction l with
  | nil => intro seen x h; cases h
  | cons k ks ih =>
    intro seen x h
    rw [firstDedupAux] at h
    by_cases hk : k ∈ seen
    · rw [if_pos hk] at h
      exact List.mem_cons_of_mem k (ih seen x h)
    · rw [if_neg hk] at h
      rcases List.mem_cons.mp h with h1 | h1
      · exact h1 ▸ List.mem_cons_self k ks
      · exact List.mem_cons_of_mem k (ih (k :: seen) x h1)

/-- When no stored key is an array index, property enumeration reads the
object in insertion order. -/
theorem jsEntries_eq_self (m : List (String × String))
    (h : ∀ p ∈ m, isArrayIndex p.1 = none) : jsEntries m = m := by
  have h1 : m.filter (fun p => (isArrayIndex p.1).isSome) = [] := by
    rw [List.filter_eq_nil_iff]
    intro p hp
    rw [h p hp]
    simp
  have h2 : m.filter (fun p => (isArrayIndex p.1).isNone) = m := by
    rw [List.filter_eq_self]
    intro p hp
    rw [h p hp]
    rfl
  rw [jsEntries, h1, h2]
  rfl

/-- C9 counterexample: on the input with keys `x` then `1` (in that
encounter order), the metadata object stores the pairs in insertion
order, yet serialization emits the line of the array-index key `1`
first, because `Object.entries` enumerates array-index keys before the
others; the serialized text is not the insertion-order text the claim
predicts. -/
theorem c9_counterexample :
    (sentenceSerialSet {} "# x = a\n# 1 = b\n").metadata = [("x", "a"), ("1", "b")]
      ∧ sentenceSerialGet (sentenceSerialSet {} "# x = a\n# 1 = b\n")
          = "# 1 = b\n# x = a\n"
      ∧ "# 1 = b\n# x = a\n" ≠ "# x = a\n# 1 = b\n" := by
  refine ⟨by decide, by decide, by decide⟩

/-- C9 (amended): the metadata mapping produced by Sentence parse holds
exactly the recognized metadata lines — keys in first-encounter order
with no duplicates, every stored value the last value written for its
key — and, provided no recognized key is a JavaScript array index,
serialization emits the metadata lines in exactly that stored insertion
order (the joined metadata lines are a prefix of the serialized
sentence).  With an array-index key, enumeration moves it in front. -/
theorem c9_metadata_order (s₀ : Sentence) (T : String)
    (hks : ∀ k ∈ (recognizedPairs (jsSplit '\n' T)).map Prod.fst,
      isArrayIndex k = none) :
    ((sentenceSerialSet s₀ T).metadata.map Prod.fst
        = firstDedup ((recognizedPairs (jsSplit '\n' T)).map Prod.fst))
      ∧ ((sentenceSerialSet s₀ T).metadata.map Prod.fst).Nodup
      ∧ (∀ p ∈ (sentenceSerialSet s₀ T).metadata,
          jsLastVal (recognizedPairs (jsSplit '\n' T)) p.1 = some p.2)
      ∧ ∃ rest : String,
          sentenceSerialGet (sentenceSerialSet s₀ T)
            = joinSep "\n" ((sentenceSerialSet s₀ T).metadata.map renderMetaLine) ++ rest := by
  have hfold : (sentenceSerialSet s₀ T).metadata
      = (recognizedPairs (jsSplit '\n' T)).foldl metaIns [] :=
    metadataPass_eq_fold (jsSplit '\n' T)
  have hnodup : ((sentenceSerialSet s₀ T).metadata.map Prod.fst).Nodup := by
    rw [hfold]
    exact foldIns_nodup _ [] (by simp)
  have hkeys : (sentenceSerialSet s₀ T).metadata.map Prod.fst
      = firstDedup ((recognizedPairs (jsSplit '\n' T)).map Prod.fst) := by
    rw [hfold, foldIns_keys]
    simp [firstDedup]
  refine ⟨hkeys, hnodup, ?_, ?_⟩
  · intro p hp
    have hlk := metaLookup_of_mem _ p hnodup hp
    rw [hfold, metaLookup_foldIns] at hlk
    simpa [metaLookup, Option.or_none] using hlk
  · have hmk : ∀ p ∈ (sentenceSerialSet s₀ T).metadata, isArrayIndex p.1 = none := by
      intro p hp
      have hp1 : p.1 ∈ (sentenceSerialSet s₀ T).metadata.map Prod.fst :=
        List.mem_map.mpr ⟨p, hp, rfl⟩
      rw [hkeys] at hp1
      exact hks p.1 (mem_of_mem_firstDedupAux _ [] p.1 hp1)
    have hje : jsEntries (sentenceSerialSet s₀ T).metadata
        = (sentenceSerialSet s₀ T).metadata := jsEntries_eq_self _ hmk
    obtain ⟨y, ys, hys⟩ :
        ∃ y ys, (sentenceSerialSet s₀ T).tokens.map entrySerial ++ [""] = y :: ys := by
      cases (sentenceSerialSet s₀ T).tokens.map entrySerial with
      | nil => exact ⟨"", [], rfl⟩
      | cons a l => exact ⟨a, l ++ [""], rfl⟩
    obtain ⟨r, hr⟩ :=
      joinSep_append_rest "\n" ((sentenceSerialSet s₀ T).metadata.map renderMetaLine) y ys
    refine ⟨r, ?_⟩
    have hget : sentenceSerialGet (sentenceSerialSet s₀ T)
        = joinSep "\n" ((sentenceSerialSet s₀ T).metadata.map renderMetaLine
            ++ ((sentenceSerialSet s₀ T).tokens.map entrySerial ++ [""])) := by
      rw [sentenceSerialGet, hje, List.append_assoc]
    rw [hget, hys, hr]

/-- C9 witness: three metadata lines with a repeated non-array-index key;
the stored value of the repeated key is the last one written. -/
theorem c9_metadata_order_witness :
    (∀ k ∈ (recognizedPairs (jsSplit '\n' "# x = 1\n# y = 2\n# x = 3\n")).map Prod.fst,
        isArrayIndex k = none)
      ∧ ("x", "3") ∈ (sentenceSerialSet {} "# x = 1\n# y = 2\n# x = 3\n").metadata
      ∧ jsLastVal (recognizedPairs (jsSplit '\n' "# x = 1\n# y = 2\n# x = 3\n")) "x"
          = some "3" :=
  ⟨by decide, by decide,
   (c9_metadata_order {} "# x = 1\n# y = 2\n# x = 3\n" (by decide)).2.2.1
     ("x", "3") (by decide)⟩

/-! ## Identifier-sequence lemmas (towards C3, C4, C5, C6) -/

/-- Flattened ids of an appended entry list. -/
theorem flatIds_append (xs ys : List Entry) :
    flatIds (xs ++ ys) = flatIds xs ++ flatIds ys := by
  simp [flatIds]

/-- Flattened ids of a cons cell. -/
theorem flatIds_cons (e : Entry) (es : List Entry) :
    flatIds (e :: es) = entryIds e ++ flatIds es := rfl

/-- Membership in the flattened ids. -/
theorem mem_flatIds (es : List Entry) (e : Entry) (i : JSId)
    (he : e ∈ es) (hi : i ∈ entryIds e) : i ∈ flatIds es := by
  simp only [flatIds, List.mem_flatten, List.mem_map]
  exact ⟨entryIds e, ⟨e, he, rfl⟩, hi⟩

/-- Length of an ascending run. -/
theorem idRun_length (a : Int) (n : Nat) : (idRun a n).length = n := by
  induction n generalizing a with
  | zero => rfl
  | succ k ih => simp [idRun, ih]

/-- Concatenation of two adjacent ascending runs. -/
theorem idRun_append (n₁ : Nat) :
    ∀ (a b : Int) (n₂ : Nat), b = a + n₁ →
      idRun a n₁ ++ idRun b n₂ = idRun a (n₁ + n₂) := by
  induction n₁ with
  | zero =>
    intro a b n₂ hb
    simp only [Nat.cast_zero, add_zero] at hb
    subst hb
    simp [idRun]
  | succ k ih =>
    intro a b n₂ hb
    have hb2 : b = (a + 1) + (k : Int) := by push_cast at hb ⊢; omega
    have : (k + 1) + n₂ = (k + n₂) + 1 := by omega
    rw [this]
    simp only [idRun, List.cons_append]
    rw [ih (a + 1) b n₂ hb2]

/-- Every member of an ascending run is a numeric id in range. -/
theorem mem_idRun (n : Nat) :
    ∀ (a : Int) (i : JSId), i ∈ idRun a n →
      ∃ w : Int, i = .num w ∧ a ≤ w ∧ w < a + n := by
  induction n with
  | zero => intro a i hi; cases hi
  | succ k ih =>
    intro a i hi
    rcases List.mem_cons.mp hi with h | h
    · exact ⟨a, h, le_refl a, by omega⟩
    · obtain ⟨w, hw, h1, h2⟩ := ih (a + 1) i h
      exact ⟨w, hw, by omega, by omega⟩

/-- A split of an ascending run along a list append. -/
theorem append_eq_idRun (xs : List JSId) :
    ∀ (ys : List JSId) (a : Int) (n : Nat), xs ++ ys = idRun a n →
      ∃ n₁ n₂, n = n₁ + n₂ ∧ xs = idRun a n₁ ∧ ys = idRun (a + n₁) n₂ := by
  induction xs with
  | nil =>
    intro ys a n h
    exact ⟨0, n, by omega, rfl, by simpa using h⟩
  | cons x xs ih =>
    intro ys a n h
    cases n with
    | zero => cases h
    | succ k =>
      simp only [idRun, List.cons_append, List.cons.injEq] at h
      obtain ⟨hx, hrest⟩ := h
      obtain ⟨n₁, n₂, hn, hxs, hys⟩ := ih ys (a + 1) k hrest
      refine ⟨n₁ + 1, n₂, by omega, ?_, ?_⟩
      · rw [idRun, ← hxs, hx]
      · rw [hys]
        congr 1
        push_cast
        omega

/-- Shifting every id of an ascending run shifts the run. -/
theorem idRun_map_shift (n : Nat) :
    ∀ (a d : Int), (idRun a n).map (shiftId d) = idRun (a + d) n := by
  induction n with
  | zero => intro a d; rfl
  | succ k ih =>
    intro a d
    simp only [idRun, List.map_cons]
    rw [ih (a + 1) d]
    have h1 : shiftId d (.num a) = .num (a + d) := rfl
    have h2 : a + 1 + d = a + d + 1 := by omega
    rw [h1, h2]

/-- Ids contributed by a shifted entry. -/
theorem entryIds_shiftEntry (d : Int) (e : Entry) :
    entryIds (shiftEntry d e) = (entryIds e).map (shiftId d) := by
  cases e with
  | tok t => rfl
  | mwt m => simp [shiftEntry, entryIds, List.map_map]

/-- Flattened ids of a shifted entry list. -/
theorem flatIds_map_shift (d : Int) (es : List Entry) :
    flatIds (es.map (shiftEntry d)) = (flatIds es).map (shiftId d) := by
  induction es with
  | nil => rfl
  | cons e es ih =>
    simp only [List.map_cons, flatIds_cons, List.map_append, ih,
      entryIds_shiftEntry]

/-- The expand scan characterized: a found split decomposes the list and
the match carries the requested id. -/
theorem splitAtTok_eq (tid : JSId) (es : List Entry)
    (b : List Entry) (t : Token) (a : List Entry)
    (h : splitAtTok tid es = some (b, t, a)) :
    es = b ++ .tok t :: a ∧ t.id = tid := by
  induction es generalizing b with
  | nil => cases h
  | cons e es ih =>
    cases e with
    | tok t0 =>
      by_cases ht0 : t0.id = tid
      · rw [splitAtTok, if_pos ht0] at h
        simp only [Option.some.injEq, Prod.mk.injEq] at h
        obtain ⟨h1, h2, h3⟩ := h
        subst h1; subst h2; subst h3
        exact ⟨rfl, ht0⟩
      · rw [splitAtTok, if_neg ht0] at h
        cases hr : splitAtTok tid es with
        | none => rw [hr] at h; cases h
        | some r =>
          obtain ⟨b0, t1, a0⟩ := r
          rw [hr] at h
          simp only [Option.map_some', Option.some.injEq, Prod.mk.injEq] at h
          obtain ⟨h1, h2, h3⟩ := h
          subst h1; subst h2; subst h3
          obtain ⟨hd, hid⟩ := ih b0 hr
          exact ⟨by rw [hd, List.cons_append], hid⟩
    | mwt m =>
      rw [splitAtTok] at h
      cases hr : splitAtTok tid es with
      | none => rw [hr] at h; cases h
      | some r =>
        obtain ⟨b0, t1, a0⟩ := r
        rw [hr] at h
        simp only [Option.map_some', Option.some.injEq, Prod.mk.injEq] at h
        obtain ⟨h1, h2, h3⟩ := h
        subst h1; subst h2; subst h3
        obtain ⟨hd, hid⟩ := ih b0 hr
        exact ⟨by rw [hd, List.cons_append], hid⟩

/-- The collapse scan characterized: a found split decomposes the list
and the match carries the requested id. -/
theorem splitAtMwt_eq (tid : JSId) (es : List Entry)
    (b : List Entry) (m : MultiwordToken) (a : List Entry)
    (h : splitAtMwt tid es = some (b, m, a)) :
    es = b ++ .mwt m :: a ∧ mwtIdOf m = tid := by
  induction es generalizing b with
  | nil => cases h
  | cons e es ih =>
    cases e with
    | mwt m0 =>
      by_cases hm0 : mwtIdOf m0 = tid
      · rw [splitAtMwt, if_pos hm0] at h
        simp only [Option.some.injEq, Prod.mk.injEq] at h
        obtain ⟨h1, h2, h3⟩ := h
        subst h1; subst h2; subst h3
        exact ⟨rfl, hm0⟩
      · rw [splitAtMwt, if_neg hm0] at h
        cases hr : splitAtMwt tid es with
        | none => rw [hr] at h; cases h
        | some r =>
          obtain ⟨b0, m1, a0⟩ := r
          rw [hr] at h
          simp only [Option.map_some', Option.some.injEq, Prod.mk.injEq] at h
          obtain ⟨h1, h2, h3⟩ := h
          subst h1; subst h2; subst h3
          obtain ⟨hd, hid⟩ := ih b0 hr
          exact ⟨by rw [hd, List.cons_append], hid⟩
    | tok t0 =>
      rw [splitAtMwt] at h
      cases hr : splitAtMwt tid es with
      | none => rw [hr] at h; cases h
      | some r =>
        obtain ⟨b0, m1, a0⟩ := r
        rw [hr] at h
        simp only [Option.map_some', Option.some.injEq, Prod.mk.injEq] at h
        obtain ⟨h1, h2, h3⟩ := h
        subst h1; subst h2; subst h3
        obtain ⟨hd, hid⟩ := ih b0 hr
        exact ⟨by rw [hd, List.cons_append], hid⟩

/-- The expand scan finds the standalone Token after a prefix with no
match. -/
theorem splitAtTok_append (tid : JSId) (t : Token) (a : List Entry)
    (ht : t.id = tid) :
    ∀ b : List Entry, (∀ e ∈ b, isTokWithId tid e = false) →
      splitAtTok tid (b ++ .tok t :: a) = some (b, t, a) := by
  intro b
  induction b with
  | nil =>
    intro _
    rw [List.nil_append, splitAtTok, if_pos ht]
  | cons e b ih =>
    intro hb
    have hrec := ih (fun e he => hb e (List.mem_cons_of_mem _ he))
    cases e with
    | tok t0 =>
      have h0 : ¬ (t0.id = tid) := by
        simpa [isTokWithId] using hb (.tok t0) (List.mem_cons_self _ _)
      rw [List.cons_append, splitAtTok, if_neg h0, hrec]
      rfl
    | mwt m =>
      rw [List.cons_append, splitAtTok, hrec]
      rfl

/-- The collapse scan finds the MultiwordToken after a prefix with no
matching group (matching standalone Tokens do not stop it). -/
theorem splitAtMwt_append (tid : JSId) (m : MultiwordToken) (a : List Entry)
    (hm : mwtIdOf m = tid) :
    ∀ b : List Entry, (∀ e ∈ b, isMwtWithId tid e = false) →
      splitAtMwt tid (b ++ .mwt m :: a) = some (b, m, a) := by
  intro b
  induction b with
  | nil =>
    intro _
    rw [List.nil_append, splitAtMwt, if_pos hm]
  | cons e b ih =>
    intro hb
    have hrec := ih (fun e he => hb e (List.mem_cons_of_mem _ he))
    cases e with
    | mwt m0 =>
      have h0 : ¬ (mwtIdOf m0 = tid) := by
        simpa [isMwtWithId] using hb (.mwt m0) (List.mem_cons_self _ _)
      rw [List.cons_append, splitAtMwt, if_neg h0, hrec]
      rfl
    | tok t0 =>
      rw [List.cons_append, splitAtMwt, hrec]
      rfl

/-- The collapse scan finds nothing when no MultiwordToken matches. -/
theorem splitAtMwt_none (tid : JSId) (es : List Entry)
    (h : ∀ e ∈ es, isMwtWithId tid e = false) :
    splitAtMwt tid es = none := by
  induction es with
  | nil => rfl
  | cons e es ih =>
    have hrec := ih (fun e he => h e (List.mem_cons_of_mem _ he))
    cases e with
    | tok t0 => rw [splitAtMwt, hrec]; rfl
    | mwt m0 =>
      have h0 : ¬ (mwtIdOf m0 = tid) := by
        simpa [isMwtWithId] using h (.mwt m0) (List.mem_cons_self _ _)
      rw [splitAtMwt, if_neg h0, hrec]
      rfl

/-- Composition of two id shifts. -/
theorem shiftId_shiftId (d₁ d₂ : Int) (i : JSId) :
    shiftId d₂ (shiftId d₁ i) = shiftId (d₁ + d₂) i := by
  cases i with
  | undef => rfl
  | nan => rfl
  | num w =>
    show JSId.num (w + d₁ + d₂) = JSId.num (w + (d₁ + d₂))
    rw [add_assoc]
  | str s =>
    cases h : jsNum s with
    | none => simp [shiftId, jsNumberOfId, h]
    | some v => simp [shiftId, jsNumberOfId, h, add_assoc]

/-- Updating the id of a Token with its own id is the identity. -/
theorem token_update_id_self (t : Token) (i : JSId) (h : t.id = i) :
    ({ t with id := i } : Token) = t := by
  rw [← h]

/-- A zero shift fixes a numeric id. -/
theorem shiftId_zero (i : JSId) (h : idNumeric i = true) : shiftId 0 i = i := by
  cases i with
  | num w =>
    show JSId.num (w + 0) = JSId.num w
    rw [add_zero]
  | undef => cases h
  | nan => cases h
  | str s => cases h

/-- Composition of two entry shifts. -/
theorem shiftEntry_shiftEntry (d₁ d₂ : Int) (e : Entry) :
    shiftEntry d₂ (shiftEntry d₁ e) = shiftEntry (d₁ + d₂) e := by
  cases e with
  | tok t =>
    show Entry.tok { t with id := shiftId d₂ (shiftId d₁ t.id) }
        = Entry.tok { t with id := shiftId (d₁ + d₂) t.id }
    rw [shiftId_shiftId]
  | mwt m =>
    show Entry.mwt { m with tokens := (m.tokens.map _).map _ } = _
    refine congrArg Entry.mwt (congrArg (fun l => { m with tokens := l }) ?_)
    rw [List.map_map]
    refine List.map_congr_left (fun c _ => ?_)
    show ({ c with id := shiftId d₂ (shiftId d₁ c.id) } : Token)
        = { c with id := shiftId (d₁ + d₂) c.id }
    rw [shiftId_shiftId]

/-- A zero shift fixes an entry whose ids are all numeric. -/
theorem shiftEntry_zero (e : Entry)
    (h : (entryIds e).all idNumeric = true) : shiftEntry 0 e = e := by
  cases e with
  | tok t =>
    have hn : idNumeric t.id = true := by
      simpa [entryIds] using h
    exact congrArg Entry.tok (token_update_id_self t _ (shiftId_zero t.id hn).symm)
  | mwt m =>
    have hall : ∀ c ∈ m.tokens, idNumeric c.id = true := by
      intro c hc
      have hl := List.all_eq_true.mp (show (m.tokens.map (fun c => c.id)).all idNumeric = true from h)
      exact hl c.id (List.mem_map.mpr ⟨c, hc, rfl⟩)
    show Entry.mwt { m with tokens := m.tokens.map _ } = Entry.mwt m
    refine congrArg Entry.mwt ?_
    have hmap : m.tokens.map (fun c => ({ c with id := shiftId 0 c.id } : Token)) = m.tokens := by
      refine (List.map_congr_left (fun c hc => ?_)).trans (List.map_id _)
      exact token_update_id_self c _ (shiftId_zero c.id (hall c hc)).symm
    rw [hmap]

/-! ## Equation lemmas for expand and collapse -/

/-- Expand with no matching standalone Token leaves the sentence
unchanged. -/
theorem expand_eq_self_none (s : Sentence) (tid : JSId) (idx : Nat)
    (h : splitAtTok tid s.tokens = none) : expand s tid idx = s := by
  unfold expand
  rw [h]

/-- Expand on a match whose form is undefined leaves the sentence
unchanged (the JavaScript slice throws before any mutation). -/
theorem expand_eq_self_formNone (s : Sentence) (tid : JSId) (idx : Nat)
    (b : List Entry) (t : Token) (a : List Entry)
    (hs : splitAtTok tid s.tokens = some (b, t, a)) (hf : t.form = none) :
    expand s tid idx = s := by
  unfold expand
  rw [hs]
  simp only []
  rw [hf]

/-- Expand on a match with a defined form builds the two-child group in
place and shifts the later entries up by one. -/
theorem expand_eq_build (s : Sentence) (tid : JSId) (idx : Nat)
    (b : List Entry) (t : Token) (a : List Entry) (f : String)
    (hs : splitAtTok tid s.tokens = some (b, t, a)) (hf : t.form = some f) :
    expand s tid idx =
      { s with
        tokens := b
          ++ .mwt { form := some f,
                    tokens := [{ id := t.id, form := some (strTake f idx) },
                               { id := shiftId 1 t.id, form := some (strDrop f idx) }] }
            :: a.map (shiftEntry 1) } := by
  unfold expand
  rw [hs]
  simp only []
  rw [hf]

/-- Collapse with no matching MultiwordToken leaves the sentence
unchanged. -/
theorem collapse_eq_self_none (s : Sentence) (tid : JSId)
    (h : splitAtMwt tid s.tokens = none) : collapse s tid = s := by
  unfold collapse
  rw [h]

/-- Collapse on a matched group with no children leaves the sentence
unchanged (the JavaScript child read throws before any mutation). -/
theorem collapse_eq_self_empty (s : Sentence) (tid : JSId)
    (b : List Entry) (m : MultiwordToken) (a : List Entry)
    (hs : splitAtMwt tid s.tokens = some (b, m, a)) (hc : m.tokens = []) :
    collapse s tid = s := by
  unfold collapse
  rw [hs]
  simp only []
  rw [hc]

/-- Collapse on a matched group with children builds the single Token in
place and shifts the later entries down by the child count minus one. -/
theorem collapse_eq_build (s : Sentence) (tid : JSId)
    (b : List Entry) (m : MultiwordToken) (c0 : Token) (cs : List Token)
    (a : List Entry)
    (hs : splitAtMwt tid s.tokens = some (b, m, a)) (hc : m.tokens = c0 :: cs) :
    collapse s tid =
      { s with
        tokens := b
          ++ .tok { id := jsToNum c0.id, form := m.form }
            :: a.map (shiftEntry (-((((c0 :: cs).length : Int)) - 1))) } := by
  unfold collapse
  rw [hs]
  simp only []
  rw [hc]

/-! ## Invariant preservation (towards C3) -/

/-- One expand call preserves the gap-free ascending id sequence. -/
theorem expand_preserves (s : Sentence) (n : Nat) (tid : JSId) (idx : Nat)
    (h : idSeq s = idRun 1 n) :
    ∃ m : Nat, idSeq (expand s tid idx) = idRun 1 m := by
  cases hsplit : splitAtTok tid s.tokens with
  | none =>
    exact ⟨n, by rw [expand_eq_self_none s tid idx hsplit]; exact h⟩
  | some r =>
    obtain ⟨b, t, a⟩ := r
    obtain ⟨hdecomp, -⟩ := splitAtTok_eq tid s.tokens b t a hsplit
    cases hform : t.form with
    | none =>
      exact ⟨n, by rw [expand_eq_self_formNone s tid idx b t a hsplit hform]; exact h⟩
    | some f =>
      have hseq : flatIds b ++ (t.id :: flatIds a) = idRun 1 n := by
        rw [← h]
        show _ = idSeq s
        rw [idSeq, hdecomp, flatIds_append, flatIds_cons]
        rfl
      obtain ⟨n₁, n₂, hn, hb, hrest⟩ :=
        append_eq_idRun (flatIds b) (t.id :: flatIds a) 1 n hseq
      cases n₂ with
      | zero => simp [idRun] at hrest
      | succ k =>
        rw [idRun] at hrest
        injection hrest with ht ha
        refine ⟨n₁ + (k + 2), ?_⟩
        rw [expand_eq_build s tid idx b t a f hsplit hform]
        show flatIds (b ++ _ :: a.map (shiftEntry 1)) = _
        rw [flatIds_append, flatIds_cons, flatIds_map_shift]
        simp only [entryIds, List.map_cons, List.map_nil]
        rw [hb, ha, ht, idRun_map_shift]
        have h1 : shiftId 1 (JSId.num (1 + (n₁ : Int))) = JSId.num (1 + (n₁ : Int) + 1) := rfl
        rw [h1]
        rw [← idRun_append n₁ 1 (1 + (n₁ : Int)) (k + 2) rfl]
        simp only [List.cons_append, List.nil_append, List.append_assoc]
        rfl

/-- One collapse call preserves the gap-free ascending id sequence. -/
theorem collapse_preserves (s : Sentence) (n : Nat) (tid : JSId)
    (h : idSeq s = idRun 1 n) :
    ∃ m : Nat, idSeq (collapse s tid) = idRun 1 m := by
  cases hsplit : splitAtMwt tid s.tokens with
  | none =>
    exact ⟨n, by rw [collapse_eq_self_none s tid hsplit]; exact h⟩
  | some r =>
    obtain ⟨b, m, a⟩ := r
    obtain ⟨hdecomp, -⟩ := splitAtMwt_eq tid s.tokens b m a hsplit
    cases hc : m.tokens with
    | nil =>
      exact ⟨n, by rw [collapse_eq_self_empty s tid b m a hsplit hc]; exact h⟩
    | cons c0 cs =>
      have hseq : flatIds b ++ ((c0.id :: cs.map (fun c => c.id)) ++ flatIds a) = idRun 1 n := by
        rw [← h]
        show _ = idSeq s
        rw [idSeq, hdecomp, flatIds_append, flatIds_cons]
        have : entryIds (.mwt m) = c0.id :: cs.map (fun c => c.id) := by
          show m.tokens.map (fun c => c.id) = _
          rw [hc, List.map_cons]
        rw [this]
      obtain ⟨n₁, n₂, hn, hb, hrest⟩ :=
        append_eq_idRun (flatIds b) _ 1 n hseq
      obtain ⟨n₃, n₄, hn2, hchild, ha⟩ :=
        append_eq_idRun (c0.id :: cs.map (fun c => c.id)) (flatIds a) (1 + (n₁ : Int)) n₂ hrest
      cases n₃ with
      | zero => simp [idRun] at hchild
      | succ L =>
        rw [idRun] at hchild
        injection hchild with hc0 hcs
        have hlenL : cs.length = L := by
          have := congrArg List.length hcs
          rw [List.length_map, idRun_length] at this
          exact this
        refine ⟨n₁ + (n₄ + 1), ?_⟩
        rw [collapse_eq_build s tid b m c0 cs a hsplit hc]
        show flatIds (b ++ _ :: a.map _) = _
        rw [flatIds_append, flatIds_cons, flatIds_map_shift]
        have htok : entryIds (.tok { id := jsToNum c0.id, form := m.form })
            = [jsToNum c0.id] := rfl
        rw [htok, hb, ha, hc0, idRun_map_shift]
        have hjs : jsToNum (JSId.num (1 + (n₁ : Int))) = JSId.num (1 + (n₁ : Int)) := rfl
        rw [hjs]
        have hshift : 1 + (n₁ : Int) + (L + 1 : Nat)
              + -((((c0 :: cs).length : Nat) : Int) - 1)
            = 1 + (n₁ : Int) + 1 := by
          rw [List.length_cons, hlenL]
          push_cast
          omega
        rw [hshift]
        rw [← idRun_append n₁ 1 (1 + (n₁ : Int)) (n₄ + 1) rfl]
        simp only [List.cons_append, List.nil_append, List.append_assoc]
        rfl

/-- C3 counterexample: a sentence whose identifiers form the set
containing 1 and 2 but in descending display order satisfies the claim
hypothesis, yet one expand call produces a duplicate identifier, so the
resulting identifiers are no longer any gap-free run. -/
theorem c3_counterexample :
    List.Perm
        (idSeq { metadata := [],
                 tokens := [.tok { id := .num 2, form := some "c" },
                            .tok { id := .num 1, form := some "ab" }] })
        (idRun 1 2)
      ∧ ¬ ∃ m : Nat,
          List.Perm
            (idSeq (expand
              { metadata := [],
                tokens := [.tok { id := .num 2, form := some "c" },
                           .tok { id := .num 1, form := some "ab" }] }
              (.num 1) 1))
            (idRun 1 m) := by
  constructor
  · show List.Perm [JSId.num 2, JSId.num 1] [JSId.num 1, JSId.num 2]
    exact List.Perm.swap _ _ _
  · rintro ⟨m, hm⟩
    have hlen := hm.length_eq
    rw [idRun_length] at hlen
    have hm3 : m = 3 := by
      have h3 : (idSeq (expand
          { metadata := [],
            tokens := [.tok { id := .num 2, form := some "c" },
                       .tok { id := .num 1, form := some "ab" }] }
          (.num 1) 1)).length = 3 := by decide
      omega
    subst hm3
    have hcount := hm.count_eq (JSId.num 2)
    exact absurd hcount (by decide)

/-- C3 (amended): for every Sentence whose identifiers, read in display
order across standalone Tokens and MultiwordToken children, form exactly
the ascending run 1..n, any sequence of expand and collapse operations
leaves the identifiers an ascending run 1..m: no duplicates and no
gaps. -/
theorem c3_id_contiguity (s : Sentence) (n : Nat) (ops : List Op)
    (h : idSeq s = idRun 1 n) :
    ∃ m : Nat, idSeq (applyOps s ops) = idRun 1 m := by
  induction ops generalizing s n with
  | nil => exact ⟨n, h⟩
  | cons op ops ih =>
    cases op with
    | expandOp tid idx =>
      obtain ⟨m, hm⟩ := expand_preserves s n tid idx h
      exact ih (expand s tid idx) m hm
    | collapseOp tid =>
      obtain ⟨m, hm⟩ := collapse_preserves s n tid h
      exact ih (collapse s tid) m hm

/-- C3 witness: a two-token sentence with ascending ids 1, 2, an expand
of token 1 followed by a collapse of the created group. -/
theorem c3_id_contiguity_witness :
    idSeq { metadata := [],
            tokens := [.tok { id := .num 1, form := some "ab" },
                       .tok { id := .num 2, form := some "c" }] } = idRun 1 2
      ∧ ∃ m : Nat,
          idSeq (applyOps
            { metadata := [],
              tokens := [.tok { id := .num 1, form := some "ab" },
                         .tok { id := .num 2, form := some "c" }] }
            [.expandOp (.num 1) 1, .collapseOp (.str "1-2")]) = idRun 1 m :=
  ⟨by decide,
   c3_id_contiguity _ 2 [.expandOp (.num 1) 1, .collapseOp (.str "1-2")] (by decide)⟩

/-! ## C4 and C5: expand and collapse functional correctness -/

/-- On a numeric id the source shift agrees with the spec-side bump. -/
theorem shiftId_eq_bumpId (d : Int) (i : JSId) (h : idNumeric i = true) :
    shiftId d i = bumpId d i := by
  cases i with
  | num w => rfl
  | undef => cases h
  | nan => cases h
  | str s => cases h

/-- On an entry with numeric ids the source shift agrees with the
spec-side bump. -/
theorem shiftEntry_eq_bumpEntry (d : Int) (e : Entry)
    (h : (entryIds e).all idNumeric = true) : shiftEntry d e = bumpEntry d e := by
  cases e with
  | tok t =>
    have hn : idNumeric t.id = true := by simpa [entryIds] using h
    show Entry.tok { t with id := shiftId d t.id } = Entry.tok { t with id := bumpId d t.id }
    rw [shiftId_eq_bumpId d t.id hn]
  | mwt m =>
    have hall : ∀ c ∈ m.tokens, idNumeric c.id = true := by
      intro c hc
      have hl := List.all_eq_true.mp
        (show (m.tokens.map (fun c => c.id)).all idNumeric = true from h)
      exact hl c.id (List.mem_map.mpr ⟨c, hc, rfl⟩)
    show Entry.mwt { m with tokens := m.tokens.map _ }
        = Entry.mwt { m with tokens := m.tokens.map _ }
    refine congrArg Entry.mwt (congrArg (fun l => { m with tokens := l }) ?_)
    refine List.map_congr_left (fun c hc => ?_)
    show ({ c with id := shiftId d c.id } : Token) = { c with id := bumpId d c.id }
    rw [shiftId_eq_bumpId d c.id (hall c hc)]

/-- On an entry list with numeric ids the mapped source shift agrees with
the mapped spec-side bump. -/
theorem map_shift_eq_map_bump (d : Int) (es : List Entry)
    (h : entriesNumeric es = true) :
    es.map (shiftEntry d) = es.map (bumpEntry d) := by
  refine List.map_congr_left (fun e he => ?_)
  exact shiftEntry_eq_bumpEntry d e (List.all_eq_true.mp h e he)

/-- C4: expand on a Sentence containing a standalone Token with id
`v` and form `f` (no earlier standalone Token carrying that id) replaces
that entry in place by a MultiwordToken whose form is `f` and whose two
children carry the forms `f` up to and from the split offset with ids `v`
and `v + 1`, and increments by one the id of every standalone Token and
every MultiwordToken child positioned after the replaced entry. -/
theorem c4_expand_spec (md : List (String × String)) (b a : List Entry)
    (t : Token) (v : Int) (f : String) (idx : Nat)
    (ht : t.id = .num v) (hf : t.form = some f)
    (hb : ∀ e ∈ b, isTokWithId (.num v) e = false)
    (ha : entriesNumeric a = true) :
    expand { metadata := md, tokens := b ++ .tok t :: a } (.num v) idx
      = { metadata := md,
          tokens := b
            ++ .mwt { form := some f,
                      tokens := [{ id := .num v, form := some (strTake f idx) },
                                 { id := .num (v + 1), form := some (strDrop f idx) }] }
              :: a.map (bumpEntry 1) } := by
  have hsplit : splitAtTok (.num v)
      ({ metadata := md, tokens := b ++ .tok t :: a } : Sentence).tokens
      = some (b, t, a) :=
    splitAtTok_append (.num v) t a ht b hb
  rw [expand_eq_build _ _ _ b t a f hsplit hf, ht,
    map_shift_eq_map_bump 1 a ha]
  rfl

/-- C4 witness: splitting the token with id 1 and form of two characters
at offset 1, with one standalone token after it. -/
theorem c4_expand_spec_witness :
    entriesNumeric [.tok { id := .num 2, form := some "c" }] = true
      ∧ expand { metadata := [],
                 tokens := [.tok { id := .num 1, form := some "ab" },
                            .tok { id := .num 2, form := some "c" }] }
          (.num 1) 1
        = { metadata := [],
            tokens := [.mwt { form := some "ab",
                              tokens := [{ id := .num 1, form := some "a" },
                                         { id := .num 2, form := some "b" }] },
                       .tok { id := .num 3, form := some "c" }] } := by
  refine ⟨by decide, ?_⟩
  have h := c4_expand_spec [] [] [.tok { id := .num 2, form := some "c" }]
    { id := .num 1, form := some "ab" } 1 "ab" 1 rfl rfl
    (fun e he => nomatch he) (by decide)
  exact h

/-- C5: collapse on a Sentence containing a MultiwordToken whose id
matches (no earlier group carrying that id) replaces it in place by a
single standalone Token taking the id of the first child and the form of
the group, and decreases by the child count minus one the id of every
standalone Token and every MultiwordToken child positioned after it; and
when no MultiwordToken matches the requested id (in particular when the
matching entry is a standalone Token) the sentence is left unchanged. -/
theorem c5_collapse_spec :
    (∀ (md : List (String × String)) (b a : List Entry) (m : MultiwordToken)
        (c0 : Token) (cs : List Token) (j : Int) (tid : JSId),
        m.tokens = c0 :: cs → c0.id = .num j → mwtIdOf m = tid →
        (∀ e ∈ b, isMwtWithId tid e = false) → entriesNumeric a = true →
        collapse { metadata := md, tokens := b ++ .mwt m :: a } tid
          = { metadata := md,
              tokens := b
                ++ .tok { id := .num j, form := m.form }
                  :: a.map (bumpEntry (-((((c0 :: cs).length : Int)) - 1))) })
      ∧ (∀ (s : Sentence) (tid : JSId),
          (∀ e ∈ s.tokens, isMwtWithId tid e = false) → collapse s tid = s) := by
  constructor
  · intro md b a m c0 cs j tid hc hc0 hm hb ha
    have hsplit : splitAtMwt tid
        ({ metadata := md, tokens := b ++ .mwt m :: a } : Sentence).tokens
        = some (b, m, a) :=
      splitAtMwt_append tid m a hm b hb
    rw [collapse_eq_build _ _ b m c0 cs a hsplit hc, hc0,
      map_shift_eq_map_bump _ a ha]
    rfl
  · intro s tid h
    exact collapse_eq_self_none s tid (splitAtMwt_none tid s.tokens h)

/-- C5 witness: collapsing the group with id 1-2 in front of one later
token, and the no-op on a sentence whose only entry is a standalone
Token with the requested id. -/
theorem c5_collapse_spec_witness :
    mwtIdOf { form := some "ab",
              tokens := [{ id := .num 1, form := some "a" },
                         { id := .num 2, form := some "b" }] } = .str "1-2"
      ∧ collapse { metadata := [],
                   tokens := [.mwt { form := some "ab",
                                     tokens := [{ id := .num 1, form := some "a" },
                                                { id := .num 2, form := some "b" }] },
                              .tok { id := .num 3, form := some "c" }] }
          (.str "1-2")
        = { metadata := [],
            tokens := [.tok { id := .num 1, form := some "ab" },
                       .tok { id := .num 2, form := some "c" }] }
      ∧ collapse { metadata := [],
                   tokens := [.tok { id := .num 1, form := some "x" }] } (.num 1)
        = { metadata := [],
            tokens := [.tok { id := .num 1, form := some "x" }] } := by
  refine ⟨by decide, ?_, ?_⟩
  · have h := c5_collapse_spec.1 [] []
      [.tok { id := .num 3, form := some "c" }]
      { form := some "ab",
        tokens := [{ id := .num 1, form := some "a" },
                   { id := .num 2, form := some "b" }] }
      { id := .num 1, form := some "a" } [{ id := .num 2, form := some "b" }]
      1 (.str "1-2") rfl rfl (by decide) (fun e he => nomatch he) (by decide)
    exact h
  · exact c5_collapse_spec.2 _ (.num 1) (by decide)

/-! ## Decimal representation lemmas (towards C6) -/

/-- Value of a digit-character list, most significant first. -/
def digitsValL (l : List Char) : Nat :=
  l.foldl (fun a c => a * 10 + (c.toNat - 48)) 0

/-- The code of the digit character of a digit. -/
theorem digitChar_toNat (m : Nat) (h : m < 10) : (Nat.digitChar m).toNat = 48 + m := by
  interval_cases m <;> rfl

/-- The fueled digit production is correct: its value is the input, its
characters are decimal digits, and it is never empty. -/
theorem natDigitsGo_spec (fuel : Nat) :
    ∀ m, m < fuel →
      digitsValL (natDigitsGo fuel m) = m
        ∧ (∀ c ∈ natDigitsGo fuel m, 48 ≤ c.toNat ∧ c.toNat ≤ 57)
        ∧ natDigitsGo fuel m ≠ [] := by
  induction fuel with
  | zero => intro m hm; omega
  | succ fuel ih =>
    intro m hm
    by_cases h10 : m < 10
    · rw [natDigitsGo, if_pos h10]
      refine ⟨?_, ?_, by simp⟩
      · show 0 * 10 + ((Nat.digitChar m).toNat - 48) = m
        rw [digitChar_toNat m h10]
        omega
      · intro c hc
        rw [List.mem_singleton.mp hc, digitChar_toNat m h10]
        omega
    · rw [natDigitsGo, if_neg h10]
      have hdivlt : m / 10 < m := Nat.div_lt_self (by omega) (by omega)
      obtain ⟨hv, hd, hne⟩ := ih (m / 10) (by omega)
      refine ⟨?_, ?_, by simp⟩
      · show List.foldl _ 0 (_ ++ [_]) = m
        rw [List.foldl_append]
        have hmod : (Nat.digitChar (m % 10)).toNat = 48 + m % 10 :=
          digitChar_toNat (m % 10) (Nat.mod_lt m (by omega))
        show digitsValL (natDigitsGo fuel (m / 10)) * 10
            + ((Nat.digitChar (m % 10)).toNat - 48) = m
        rw [hv, hmod]
        omega
      · intro c hc
        rcases List.mem_append.mp hc with h | h
        · exact hd c h
        · rw [List.mem_singleton.mp h,
            digitChar_toNat (m % 10) (Nat.mod_lt m (by omega))]
          omega

/-- The decimal representation evaluates back to its input. -/
theorem natRepr_val (n : Nat) : digitsValL (natRepr n).data = n :=
  (natDigitsGo_spec (n + 1) n (Nat.lt_succ_self n)).1

/-- The decimal representation is made of decimal digit characters. -/
theorem natRepr_digit_chars (n : Nat) :
    ∀ c ∈ (natRepr n).data, 48 ≤ c.toNat ∧ c.toNat ≤ 57 :=
  (natDigitsGo_spec (n + 1) n (Nat.lt_succ_self n)).2.1

/-- The decimal representation is never empty. -/
theorem natRepr_ne_nil (n : Nat) : (natRepr n).data ≠ [] :=
  (natDigitsGo_spec (n + 1) n (Nat.lt_succ_self n)).2.2

/-- The decimal representation is injective. -/
theorem natRepr_inj (a b : Nat) (h : natRepr a = natRepr b) : a = b := by
  have hd := congrArg String.data h
  calc a = digitsValL (natRepr a).data := (natRepr_val a).symm
    _ = digitsValL (natRepr b).data := by rw [hd]
    _ = b := natRepr_val b

/-- The decimal representation contains no dash. -/
theorem natRepr_no_dash (n : Nat) : '-' ∉ (natRepr n).data := by
  intro h
  have := natRepr_digit_chars n '-' h
  have h45 : ('-').toNat = 45 := rfl
  omega

/-- Splitting at a dash separator absent from both prefixes is
unambiguous. -/
theorem append_dash_inj (xs : List Char) :
    ∀ (xs2 ys ys2 : List Char), '-' ∉ xs → '-' ∉ xs2 →
      xs ++ '-' :: ys = xs2 ++ '-' :: ys2 → xs = xs2 ∧ ys = ys2 := by
  induction xs with
  | nil =>
    intro xs2 ys ys2 _ h2 heq
    cases xs2 with
    | nil =>
      simp only [List.nil_append, List.cons.injEq] at heq
      exact ⟨rfl, heq.2⟩
    | cons c t =>
      simp only [List.nil_append, List.cons_append, List.cons.injEq] at heq
      exact absurd (heq.1 ▸ List.mem_cons_self c t) h2
  | cons c t ih =>
    intro xs2 ys ys2 h1 h2 heq
    cases xs2 with
    | nil =>
      simp only [List.cons_append, List.nil_append, List.cons.injEq] at heq
      exact absurd (heq.1.symm ▸ List.mem_cons_self c t) h1
    | cons c2 t2 =>
      simp only [List.cons_append, List.cons.injEq] at heq
      obtain ⟨hc, hrest⟩ := heq
      have h1t : '-' ∉ t := fun hm => h1 (List.mem_cons_of_mem c hm)
      have h2t : '-' ∉ t2 := fun hm => h2 (List.mem_cons_of_mem c2 hm)
      obtain ⟨he, hy⟩ := ih t2 ys ys2 h1t h2t hrest
      exact ⟨by rw [hc, he], hy⟩

/-- The nominal-span strings of two groups with nonnegative integer
bounds agree only when the bounds agree. -/
theorem spanStr_inj (a b a2 b2 : Int) (ha : 0 ≤ a) (hb : 0 ≤ b)
    (ha2 : 0 ≤ a2) (hb2 : 0 ≤ b2)
    (h : intRepr a ++ "-" ++ intRepr b = intRepr a2 ++ "-" ++ intRepr b2) :
    a = a2 ∧ b = b2 := by
  rw [intRepr, if_neg (by omega), intRepr, if_neg (by omega)] at h
  rw [intRepr, if_neg (by omega), intRepr, if_neg (by omega)] at h
  have hd : (natRepr a.toNat).data ++ '-' :: (natRepr b.toNat).data
      = (natRepr a2.toNat).data ++ '-' :: (natRepr b2.toNat).data := by
    have := congrArg String.data h
    simpa using this
  obtain ⟨h1, h2⟩ := append_dash_inj (natRepr a.toNat).data (natRepr a2.toNat).data
    (natRepr b.toNat).data (natRepr b2.toNat).data
    (natRepr_no_dash a.toNat) (natRepr_no_dash a2.toNat) hd
  have hna : a.toNat = a2.toNat := by
    calc a.toNat = digitsValL (natRepr a.toNat).data := (natRepr_val _).symm
      _ = digitsValL (natRepr a2.toNat).data := by rw [h1]
      _ = a2.toNat := natRepr_val _
  have hnb : b.toNat = b2.toNat := by
    calc b.toNat = digitsValL (natRepr b.toNat).data := (natRepr_val _).symm
      _ = digitsValL (natRepr b2.toNat).data := by rw [h2]
      _ = b2.toNat := natRepr_val _
  omega

/-- The span string of nonnegative integer bounds never reads
`undefined-undefined`. -/
theorem spanStr_ne_undef (a b : Int) (ha : 0 ≤ a) :
    ("undefined" ++ "-" ++ "undefined" : String) ≠ intRepr a ++ "-" ++ intRepr b := by
  intro h
  rw [intRepr, if_neg (by omega)] at h
  have hd := congrArg String.data h
  have hu : (("undefined" ++ "-" ++ "undefined" : String)).data
      = 'u' :: ("ndefined-undefined").data := rfl
  rw [hu] at hd
  have hrhs : (natRepr a.toNat ++ "-" ++ intRepr b).data
      = (natRepr a.toNat).data ++ ('-' :: (intRepr b).data) := by
    rw [show ((natRepr a.toNat ++ "-") ++ intRepr b).data
        = ((natRepr a.toNat).data ++ ['-']) ++ (intRepr b).data from rfl,
      List.append_assoc]
    rfl
  rw [hrhs] at hd
  cases hra : (natRepr a.toNat).data with
  | nil => exact natRepr_ne_nil a.toNat hra
  | cons c t =>
    rw [hra, List.cons_append] at hd
    injection hd with hc _
    have hdig := natRepr_digit_chars a.toNat c (hra ▸ List.mem_cons_self c t)
    have h117 : ('u').toNat = 117 := rfl
    rw [← hc] at hdig
    omega

/-! ## C6: expand then collapse -/

/-- The first half built by expand. -/
def expandTok1 (t : Token) (f : String) (idx : Nat) : Token :=
  { id := t.id, form := some (strTake f idx) }

/-- The second half built by expand. -/
def expandTok2 (t : Token) (f : String) (idx : Nat) : Token :=
  { id := shiftId 1 t.id, form := some (strDrop f idx) }

/-- The group built by expand. -/
def expandMwt (t : Token) (f : String) (idx : Nat) : MultiwordToken :=
  { form := some f, tokens := [expandTok1 t f idx, expandTok2 t f idx] }

/-- The expand build equation phrased through `expandMwt`. -/
theorem expand_eq_build2 (s : Sentence) (tid : JSId) (idx : Nat)
    (b : List Entry) (t : Token) (a : List Entry) (f : String)
    (hs : splitAtTok tid s.tokens = some (b, t, a)) (hf : t.form = some f) :
    expand s tid idx
      = { s with tokens := b ++ .mwt (expandMwt t f idx) :: a.map (shiftEntry 1) } :=
  expand_eq_build s tid idx b t a f hs hf

/-- The id of the group built by expand from a token with numeric id. -/
theorem mwtIdOf_expandMwt (t : Token) (f : String) (idx : Nat) (v : Int)
    (ht : t.id = .num v) :
    mwtIdOf (expandMwt t f idx) = .str (intRepr v ++ "-" ++ intRepr (v + 1)) := by
  show JSId.str (jsIdString t.id ++ "-" ++ jsIdString (shiftId 1 t.id)) = _
  rw [ht]
  rfl

/-- C6 counterexample: on a sentence that contains an earlier group with
the same nominal span, collapsing by the id of the group expand just
created collapses the wrong group: the entry count comes back but the id
sequence does not. -/
theorem c6_counterexample :
    (expand { metadata := [],
              tokens := [.mwt { form := some "xy",
                                tokens := [{ id := .num 1, form := some "x" },
                                           { id := .num 2, form := some "y" }] },
                         .tok { id := .num 1, form := some "ab" }] }
        (.num 1) 1).tokens.get? 1
      = some (.mwt { form := some "ab",
                     tokens := [{ id := .num 1, form := some "a" },
                                { id := .num 2, form := some "b" }] })
      ∧ mwtIdOf { form := some "ab",
                  tokens := [{ id := .num 1, form := some "a" },
                             { id := .num 2, form := some "b" }] } = .str "1-2"
      ∧ idSeq (collapse
            (expand { metadata := [],
                      tokens := [.mwt { form := some "xy",
                                        tokens := [{ id := .num 1, form := some "x" },
                                                   { id := .num 2, form := some "y" }] },
                                 .tok { id := .num 1, form := some "ab" }] }
              (.num 1) 1)
            (.str "1-2"))
        ≠ idSeq { metadata := [],
                  tokens := [.mwt { form := some "xy",
                                    tokens := [{ id := .num 1, form := some "x" },
                                               { id := .num 2, form := some "y" }] },
                             .tok { id := .num 1, form := some "ab" }] } := by
  refine ⟨by decide, by decide, by decide⟩

/-- C6 (amended): on a Sentence whose identifiers in display order form
exactly the ascending run 1..n, expanding the standalone Token with
numeric id `v` and defined form and then collapsing by the id of the
created group restores the entry count and the id sequence of the
original sentence. -/
theorem c6_expand_collapse_inverse (s : Sentence) (b a : List Entry)
    (t : Token) (v : Int) (f : String) (n idx : Nat)
    (hdecomp : s.tokens = b ++ .tok t :: a)
    (ht : t.id = .num v) (hf : t.form = some f)
    (hrun : idSeq s = idRun 1 n) :
    (collapse (expand s (.num v) idx)
        (.str (intRepr v ++ "-" ++ intRepr (v + 1)))).tokens.length
      = s.tokens.length
    ∧ idSeq (collapse (expand s (.num v) idx)
        (.str (intRepr v ++ "-" ++ intRepr (v + 1)))) = idSeq s := by
  have hseq : flatIds b ++ (t.id :: flatIds a) = idRun 1 n := by
    rw [← hrun]
    show _ = idSeq s
    rw [idSeq, hdecomp, flatIds_append, flatIds_cons]
    rfl
  obtain ⟨n₁, n₂, hn, hfb, hrest⟩ :=
    append_eq_idRun (flatIds b) (t.id :: flatIds a) 1 n hseq
  cases n₂ with
  | zero => simp [idRun] at hrest
  | succ k =>
    rw [idRun] at hrest
    injection hrest with ht2 hfa
    have hv : v = 1 + (n₁ : Int) := by
      rw [ht] at ht2
      injection ht2
    have hv0 : 0 ≤ v := by omega
    have hbno : ∀ e ∈ b, isTokWithId (.num v) e = false := by
      intro e he
      cases e with
      | mwt m => rfl
      | tok u =>
        have hmem : u.id ∈ flatIds b :=
          mem_flatIds b (.tok u) u.id he (by simp [entryIds])
        rw [hfb] at hmem
        obtain ⟨w, hw, hw1, hw2⟩ := mem_idRun n₁ 1 u.id hmem
        show decide (u.id = JSId.num v) = false
        rw [hw]
        refine decide_eq_false ?_
        intro hc
        injection hc with hc2
        omega
    have hsplit : splitAtTok (.num v) s.tokens = some (b, t, a) := by
      rw [hdecomp]
      exact splitAtTok_append (.num v) t a ht b hbno
    have hexp := expand_eq_build2 s (.num v) idx b t a f hsplit hf
    have hmid := mwtIdOf_expandMwt t f idx v ht
    have hbno2 : ∀ e ∈ b,
        isMwtWithId (JSId.str (intRepr v ++ "-" ++ intRepr (v + 1))) e = false := by
      intro e he
      cases e with
      | tok u => rfl
      | mwt m2 =>
        show decide (mwtIdOf m2 = JSId.str (intRepr v ++ "-" ++ intRepr (v + 1))) = false
        refine decide_eq_false ?_
        cases hm2 : m2.tokens with
        | nil =>
          have hid2 : mwtIdOf m2 = .str ("undefined" ++ "-" ++ "undefined") := by
            rw [mwtIdOf, hm2]
            rfl
          rw [hid2]
          intro hc
          injection hc with hc2
          exact spanStr_ne_undef v (v + 1) hv0 hc2
        | cons c1 cs1 =>
          have hmemc : c1.id ∈ flatIds b := by
            refine mem_flatIds b (.mwt m2) c1.id he ?_
            show c1.id ∈ m2.tokens.map (fun c => c.id)
            rw [hm2]
            exact List.mem_map.mpr ⟨c1, List.mem_cons_self c1 cs1, rfl⟩
          rw [hfb] at hmemc
          obtain ⟨w1, hw1, h11, h12⟩ := mem_idRun n₁ 1 _ hmemc
          have hmeml : ((c1 :: cs1).getLastD {}).id ∈ flatIds b := by
            refine mem_flatIds b (.mwt m2) _ he ?_
            show _ ∈ m2.tokens.map (fun c => c.id)
            rw [hm2]
            exact List.mem_map.mpr ⟨_, List.mem_of_mem_getLast? rfl, rfl⟩
          rw [hfb] at hmeml
          obtain ⟨w2, hw2, h21, h22⟩ := mem_idRun n₁ 1 _ hmeml
          have hmids : mwtIdOf m2 = .str (intRepr w1 ++ "-" ++ intRepr w2) := by
            rw [mwtIdOf, hm2]
            show JSId.str (jsIdString c1.id ++ "-"
                ++ jsIdString (((c1 :: cs1).getLastD {}).id)) = _
            rw [hw1, hw2]
            rfl
          rw [hmids]
          intro hc
          injection hc with hc2
          obtain ⟨he1, -⟩ := spanStr_inj w1 w2 v (v + 1)
            (by omega) (by omega) hv0 (by omega) hc2
          omega
    have hsplit2 : splitAtMwt (JSId.str (intRepr v ++ "-" ++ intRepr (v + 1)))
        (expand s (.num v) idx).tokens
        = some (b, expandMwt t f idx, a.map (shiftEntry 1)) := by
      rw [hexp]
      exact splitAtMwt_append _ (expandMwt t f idx) (a.map (shiftEntry 1)) hmid b hbno2
    have hcol := collapse_eq_build (expand s (.num v) idx)
      (JSId.str (intRepr v ++ "-" ++ intRepr (v + 1))) b (expandMwt t f idx)
      (expandTok1 t f idx) [expandTok2 t f idx] (a.map (shiftEntry 1)) hsplit2 rfl
    have hamt : -((((expandTok1 t f idx :: [expandTok2 t f idx]).length : Nat) : Int) - 1)
        = (-1 : Int) := by norm_num
    rw [hamt] at hcol
    have hanum : ∀ e ∈ a, (entryIds e).all idNumeric = true := by
      intro e he
      refine List.all_eq_true.mpr (fun i hi => ?_)
      have hmem : i ∈ flatIds a := mem_flatIds a e i he hi
      rw [hfa] at hmem
      obtain ⟨w, hw, -, -⟩ := mem_idRun k _ i hmem
      rw [hw]
      rfl
    have hdmap : (a.map (shiftEntry 1)).map (shiftEntry (-1)) = a := by
      rw [List.map_map]
      refine (List.map_congr_left fun e he => ?_).trans (List.map_id a)
      show shiftEntry (-1) (shiftEntry 1 e) = id e
      rw [shiftEntry_shiftEntry]
      have h0 : (1 : Int) + -1 = 0 := by norm_num
      rw [h0]
      exact shiftEntry_zero e (hanum e he)
    rw [hdmap] at hcol
    have hctok : ({ id := jsToNum (expandTok1 t f idx).id, form := (expandMwt t f idx).form } : Token) = { id := .num v, form := some f } := by
      show ({ id := jsToNum t.id, form := some f } : Token) = _
      rw [ht]
      rfl
    rw [hctok] at hcol
    constructor
    · rw [hcol, hdecomp]
      show (b ++ _ :: a).length = (b ++ _ :: a).length
      simp [List.length_append]
    · rw [hcol]
      show flatIds (b ++ _ :: a) = flatIds s.tokens
      rw [hdecomp, flatIds_append, flatIds_cons, flatIds_append, flatIds_cons]
      simp only [entryIds, ht]

/-- C6 witness: a two-token sentence with ascending ids, expanding token
1 at offset 1 and collapsing the created group 1-2. -/
theorem c6_expand_collapse_inverse_witness :
    idSeq { metadata := [],
            tokens := [.tok { id := .num 1, form := some "ab" },
                       .tok { id := .num 2, form := some "c" }] } = idRun 1 2
      ∧ ((collapse (expand { metadata := [],
                             tokens := [.tok { id := .num 1, form := some "ab" },
                                        .tok { id := .num 2, form := some "c" }] }
              (.num 1) 1)
            (.str (intRepr 1 ++ "-" ++ intRepr (1 + 1)))).tokens.length
          = ({ metadata := [],
               tokens := [.tok { id := .num 1, form := some "ab" },
                          .tok { id := .num 2, form := some "c" }] } : Sentence).tokens.length
        ∧ idSeq (collapse (expand { metadata := [],
                                    tokens := [.tok { id := .num 1, form := some "ab" },
                                               .tok { id := .num 2, form := some "c" }] }
              (.num 1) 1)
            (.str (intRepr 1 ++ "-" ++ intRepr (1 + 1))))
          = idSeq { metadata := [],
                    tokens := [.tok { id := .num 1, form := some "ab" },
                               .tok { id := .num 2, form := some "c" }] }) :=
  ⟨by decide,
   c6_expand_collapse_inverse
     { metadata := [],
       tokens := [.tok { id := .num 1, form := some "ab" },
                  .tok { id := .num 2, form := some "c" }] }
     [] [.tok { id := .num 2, form := some "c" }]
     { id := .num 1, form := some "ab" } 1 "ab" 2 1 rfl rfl rfl (by decide)⟩

end Conllu
